import Mathlib

/-!
Verification of the NaturalCommitLint response-extraction and verdict
pipeline (`llmlinter.py` and `lint_commit.py`).

The Python functions are embedded shallowly over `List Char`:

* the regex patterns used by the extractors (`re.search`, `re.findall`,
  `re.match` with `re.DOTALL`) are embedded as deterministic scanners that
  reproduce the leftmost-match and lazy/greedy backtracking behaviour of
  those specific patterns;
* `json.loads` / `json.dumps` (Python standard library) are embedded as a
  recursive-descent reader and a printer over an inductive JSON value type;
* functions that only do I/O (reading `.git/config`, invoking the LLM,
  terminal rendering) are treated as external collaborators: the pure
  decision logic applied to their results is what is embedded.
-/

/-- Characters treated as whitespace by Python's `str.strip()` and by `\s`
in a `str` regex (Unicode whitespace; the listing below is the full set of
codepoints for which Python's `str.isspace` holds). -/
def pyWS (c : Char) : Bool :=
  c.toNat = 0x20 ∨ (0x09 ≤ c.toNat ∧ c.toNat ≤ 0x0d) ∨
  (0x1c ≤ c.toNat ∧ c.toNat ≤ 0x1f) ∨ c.toNat = 0x85 ∨ c.toNat = 0xa0 ∨
  c.toNat = 0x1680 ∨ (0x2000 ≤ c.toNat ∧ c.toNat ≤ 0x200a) ∨
  c.toNat = 0x2028 ∨ c.toNat = 0x2029 ∨ c.toNat = 0x202f ∨
  c.toNat = 0x205f ∨ c.toNat = 0x3000

/-- Whitespace recognised between tokens by Python's `json.loads`
(its scanner skips exactly `' '`, `'\t'`, `'\n'`, `'\r'`). -/
def jsonWS (c : Char) : Bool :=
  c = ' ' ∨ c = '\t' ∨ c = '\n' ∨ c = '\r'

/-- Python `str.strip()`: remove leading and trailing whitespace. -/
def pyStrip (l : List Char) : List Char :=
  ((l.dropWhile pyWS).reverse.dropWhile pyWS).reverse

/-- The three-backtick fence delimiter shared by all the extraction
patterns. -/
def fenceStr : List Char := '`' :: '`' :: '`' :: []

/-- Lazy search for the closing delimiter `close`, as performed by the
`(.*?)` group of the extraction regexes under `re.DOTALL`: the content
returned is the shortest prefix of the input that is followed by `close`.
`none` when no occurrence of `close` exists. -/
def lazyFindClose (close : List Char) : List Char → Option (List Char)
  | [] => none
  | c :: rest =>
    if close.isPrefixOf (c :: rest) then some []
    else (lazyFindClose close rest).map (c :: ·)

/-- One attempted match of a pattern `openTag ++ "(.*?)" ++ "```"` at the
head of the input (e.g. `openTag = "```markdown\n"`), returning the lazily
matched group. -/
def tagMatchAt (openTag : List Char) (l : List Char) : Option (List Char) :=
  if openTag.isPrefixOf l then lazyFindClose fenceStr (l.drop openTag.length)
  else none

/-- `re.search` for a pattern `openTag ++ "(.*?)" ++ "```"`: the match
attempted at every position from the left, first success wins. -/
def tagSearch (openTag : List Char) : List Char → Option (List Char)
  | [] => none
  | c :: rest =>
    match tagMatchAt openTag (c :: rest) with
    | some g => some g
    | none => tagSearch openTag rest

/-- The opening delimiter of the `extract_markdown_block` pattern
`r"```markdown\n(.*?)```"`. -/
def mdTag : List Char := ('`' :: '`' :: '`' :: []) ++ "markdown\n".data

/-- The opening delimiter of the `extract_text_block` pattern
`r"```text\n(.*?)```"`. -/
def textTag : List Char := ('`' :: '`' :: '`' :: []) ++ "text\n".data

/-- The opening delimiter of the `extract_changes_made_block` pattern
`r"```json\n(.*?)```"`. -/
def jsonNlTag : List Char := ('`' :: '`' :: '`' :: []) ++ "json\n".data

/-- `extract_markdown_block` (identical in `llmlinter.py` and
`lint_commit.py`): `re.search(r"```markdown\n(.*?)```", text, re.DOTALL)`,
returning `match.group(1).strip()` on success and `""` otherwise. -/
def extract_markdown_block (text : List Char) : List Char :=
  match tagSearch mdTag text with
  | some g => pyStrip g
  | none => []

/-- `extract_text_block`: `re.search(r"```text\n(.*?)```", text,
re.DOTALL)`, returning `match.group(1).strip()` on success and `""`
otherwise. -/
def extract_text_block (text : List Char) : List Char :=
  match tagSearch textTag text with
  | some g => pyStrip g
  | none => []

/-- The literal `"```json"` that heads the `extract_json_block` pattern. -/
def jsonTag : List Char := ('`' :: '`' :: '`' :: []) ++ "json".data

/-- After `"```json"` the pattern `r"```json\s*({.*?})\s*```"` skips
whitespace greedily; since the next pattern element is the literal `{`
(not a whitespace character), backtracking never shortens the run, so the
match continues at the first non-whitespace character. -/
def dropWS (l : List Char) : List Char := l.dropWhile pyWS

/-- Holds when, after greedily skipping whitespace (`\s*`), the closing
fence literal follows — the continuation test applied by the lazy group of
`r"```json\s*({.*?})\s*```"` at a candidate closing `}`. -/
def fenceNext (l : List Char) : Bool := fenceStr.isPrefixOf (dropWS l)

/-- The lazy body scan of `({.*?})` after its opening `{`: the group is
closed at the first `}` whose continuation `\s*```` succeeds; a `}` whose
continuation fails is ordinary `.` content and the scan goes on. Returns
the characters strictly between the braces. -/
def scanBody : List Char → Option (List Char)
  | [] => none
  | c :: rest =>
    if c = '}' ∧ fenceNext rest then some []
    else (scanBody rest).map (c :: ·)

/-- One attempted match of `r"```json\s*({.*?})\s*```"` at the head of the
input, returning group 1 (braces included). -/
def jsonMatchAt (l : List Char) : Option (List Char) :=
  if jsonTag.isPrefixOf l then
    match dropWS (l.drop jsonTag.length) with
    | '{' :: rest => (scanBody rest).map (fun b => '{' :: (b ++ ['}']))
    | _ => none
  else none

/-- `re.search(r"```json\s*({.*?})\s*```", text, re.DOTALL)`: leftmost
successful match attempt wins. -/
def jsonSearch : List Char → Option (List Char)
  | [] => none
  | c :: rest =>
    match jsonMatchAt (c :: rest) with
    | some g => some g
    | none => jsonSearch rest

/-- JSON values as decoded by Python's `json.loads`. Non-integral numeric
literals (those with a fraction or exponent, and the `NaN` / `Infinity`
extensions) decode to floats in Python; they are kept here as their exact
literal text (`jraw`), since no code path in the repository computes with
them. -/
inductive JValue where
  | jnull
  | jbool (b : Bool)
  | jnum (n : Int)
  | jraw (s : List Char)
  | jstr (s : List Char)
  | jarr (xs : List JValue)
  | jobj (fs : List (List Char × JValue))

/-- Insertion into the dict being built by `json.loads` for an object:
an existing key keeps its position and gets the new value (Python `dict`
semantics, so a duplicated key's last value wins). -/
def dictInsert (fs : List (List Char × JValue)) (k : List Char) (v : JValue) :
    List (List Char × JValue) :=
  if fs.any (fun p => p.1 = k) then
    fs.map (fun p => if p.1 = k then (k, v) else p)
  else fs ++ [(k, v)]

/-- Python `dict` lookup on the association list built by `dictInsert`. -/
def jlookup (fs : List (List Char × JValue)) (k : List Char) : Option JValue :=
  (fs.find? (fun p => p.1 = k)).map (fun p => p.2)

/-- Value of a hexadecimal digit, as accepted by the `\uXXXX` escape of
`json.loads`. -/
def hexVal (c : Char) : Option Nat :=
  if '0' ≤ c ∧ c ≤ '9' then some (c.toNat - 48)
  else if 'a' ≤ c ∧ c ≤ 'f' then some (c.toNat - 87)
  else if 'A' ≤ c ∧ c ≤ 'F' then some (c.toNat - 55)
  else none

/-- The string scanner of `json.loads` (strict mode), applied after the
opening quote: literal chunks up to the closing quote, with the standard
backslash escapes; an unescaped control character below `0x20` or an
unknown escape is an error. (Surrogate-pair combination of adjacent
`\uXXXX` escapes is not modelled; no input considered here contains astral
escapes.) Returns the decoded content and the text after the closing
quote. -/
def parseStr : List Char → Option (List Char × List Char)
  | [] => none
  | c :: rest =>
    if c = '"' then some ([], rest)
    else if c = '\\' then
      match rest with
      | 'u' :: h1 :: h2 :: h3 :: h4 :: r =>
        match hexVal h1, hexVal h2, hexVal h3, hexVal h4 with
        | some a, some b, some c2, some d =>
          (parseStr r).map
            (fun p => (Char.ofNat (((a * 16 + b) * 16 + c2) * 16 + d) :: p.1, p.2))
        | _, _, _, _ => none
      | e :: r =>
        match charOfEscape e with
        | some c2 => (parseStr r).map (fun p => (c2 :: p.1, p.2))
        | none => none
      | [] => none
    else if c.toNat < 0x20 then none
    else (parseStr rest).map (fun p => (c :: p.1, p.2))
where
  /-- The single-character escapes accepted by `json.loads`. -/
  charOfEscape (e : Char) : Option Char :=
    if e = '"' then some '"'
    else if e = '\\' then some '\\'
    else if e = '/' then some '/'
    else if e = 'b' then some (Char.ofNat 8)
    else if e = 'f' then some (Char.ofNat 12)
    else if e = 'n' then some '\n'
    else if e = 'r' then some '\r'
    else if e = 't' then some '\t'
    else none

/-- Decimal digit test (`\d` of the `json` number regex). -/
def isDigit (c : Char) : Bool := '0' ≤ c ∧ c ≤ '9'

/-- Numeric value of a run of decimal digits. -/
def digitsVal (ds : List Char) : Nat :=
  ds.foldl (fun a c => 10 * a + (c.toNat - 48)) 0

/-- Optional fraction part `(\.\d+)?` of the `json` number regex: taken
only when a `.` with at least one digit follows. -/
def jsonFrac (l : List Char) : Option (List Char × List Char) :=
  match l with
  | c :: r =>
    if c = '.' then
      match r with
      | d :: r2 =>
        if isDigit d then
          some ('.' :: d :: r2.takeWhile isDigit, r2.dropWhile isDigit)
        else none
      | [] => none
    else none
  | [] => none

/-- Optional exponent part `([eE][-+]?\d+)?` of the `json` number regex. -/
def jsonExp (l : List Char) : Option (List Char × List Char) :=
  match l with
  | e :: r =>
    if e = 'e' ∨ e = 'E' then
      match r with
      | c :: r2 =>
        if c = '+' ∨ c = '-' then
          match r2 with
          | d :: r3 =>
            if isDigit d then
              some (e :: c :: d :: r3.takeWhile isDigit, r3.dropWhile isDigit)
            else none
          | [] => none
        else if isDigit c then
          some (e :: c :: r2.takeWhile isDigit, r2.dropWhile isDigit)
        else none
      | [] => none
    else none
  | [] => none

/-- Assemble a number match: integer digits plus optional
fraction/exponent; no fraction and no exponent means a Python `int`. -/
def jsonNumFinish (neg : Bool) (intDs rest : List Char) :
    Option (JValue × List Char) :=
  let sgnTxt : List Char := if neg then ['-'] else []
  match jsonFrac rest with
  | some (fr, r1) =>
    match jsonExp r1 with
    | some (ex, r2) => some (.jraw (sgnTxt ++ intDs ++ fr ++ ex), r2)
    | none => some (.jraw (sgnTxt ++ intDs ++ fr), r1)
  | none =>
    match jsonExp rest with
    | some (ex, r1) => some (.jraw (sgnTxt ++ intDs ++ ex), r1)
    | none =>
      let n : Int := Int.ofNat (digitsVal intDs)
      some (.jnum (if neg then -n else n), rest)

/-- The integer part `(0|[1-9]\d*)` and what follows. -/
def jsonNumBody (neg : Bool) (r0 : List Char) : Option (JValue × List Char) :=
  match r0 with
  | c :: r1 =>
    if c = '0' then jsonNumFinish neg ['0'] r1
    else if isDigit c then
      jsonNumFinish neg (c :: r1.takeWhile isDigit) (r1.dropWhile isDigit)
    else none
  | [] => none

/-- The number scanner of `json.loads`, per its regex
`-?(0|[1-9]\d*)(\.\d+)?([eE][-+]?\d+)?`: an integer literal (no fraction,
no exponent) decodes to an `Int`; otherwise the matched literal is kept as
text (a Python float). -/
def parseNum (l : List Char) : Option (JValue × List Char) :=
  match l with
  | [] => none
  | c :: r =>
    if c = '-' then jsonNumBody true r else jsonNumBody false (c :: r)

/-- The object-member loop of `json.loads` after the opening `{` (and any
whitespace): quoted key, `:`, value, then `,` to continue or `}` to close.
Members accumulate through `dictInsert`; `pv` decodes one value. -/
def parseMembers (pv : List Char → Option (JValue × List Char)) :
    Nat → List Char → List (List Char × JValue) → Option (JValue × List Char)
  | 0, _, _ => none
  | f + 1, l, acc =>
    match l with
    | '"' :: rest =>
      match parseStr rest with
      | none => none
      | some (k, r1) =>
        match r1.dropWhile jsonWS with
        | ':' :: r2 =>
          match pv (r2.dropWhile jsonWS) with
          | none => none
          | some (v, r3) =>
            match r3.dropWhile jsonWS with
            | ',' :: r4 =>
              parseMembers pv f (r4.dropWhile jsonWS) (dictInsert acc k v)
            | '}' :: r4 => some (JValue.jobj (dictInsert acc k v), r4)
            | _ => none
        | _ => none
    | _ => none

/-- The array-element loop of `json.loads` after the opening `[` (and any
whitespace): a value decoded by `pv`, then `,` to continue or `]` to
close. -/
def parseItems (pv : List Char → Option (JValue × List Char)) :
    Nat → List Char → List JValue → Option (JValue × List Char)
  | 0, _, _ => none
  | f + 1, l, acc =>
    match pv l with
    | none => none
    | some (v, r1) =>
      match r1.dropWhile jsonWS with
      | ',' :: r2 => parseItems pv f (r2.dropWhile jsonWS) (acc ++ [v])
      | ']' :: r2 => some (JValue.jarr (acc ++ [v]), r2)
      | _ => none

/-- The value dispatcher of `json.loads` (`scan_once`): selects by the
first character among string, object, array, the literal names, the
`NaN`/`Infinity` extensions, and numbers. `fuel` bounds recursion depth;
the top-level entry point supplies more fuel than any input can consume. -/
def parseVal : Nat → List Char → Option (JValue × List Char)
  | 0, _ => none
  | f + 1, l =>
    match l with
    | '"' :: rest => (parseStr rest).map (fun p => (JValue.jstr p.1, p.2))
    | '{' :: rest =>
      match rest.dropWhile jsonWS with
      | '}' :: r => some (JValue.jobj [], r)
      | r => parseMembers (parseVal f) (f + 1) r []
    | '[' :: rest =>
      match rest.dropWhile jsonWS with
      | ']' :: r => some (JValue.jarr [], r)
      | r => parseItems (parseVal f) (f + 1) r []
    | 'n' :: 'u' :: 'l' :: 'l' :: r => some (JValue.jnull, r)
    | 't' :: 'r' :: 'u' :: 'e' :: r => some (JValue.jbool true, r)
    | 'f' :: 'a' :: 'l' :: 's' :: 'e' :: r => some (JValue.jbool false, r)
    | 'N' :: 'a' :: 'N' :: r => some (JValue.jraw ('N' :: 'a' :: 'N' :: []), r)
    | 'I' :: 'n' :: 'f' :: 'i' :: 'n' :: 'i' :: 't' :: 'y' :: r =>
      some (JValue.jraw "Infinity".data, r)
    | '-' :: 'I' :: 'n' :: 'f' :: 'i' :: 'n' :: 'i' :: 't' :: 'y' :: r =>
      some (JValue.jraw "-Infinity".data, r)
    | _ => parseNum l

/-- `json.loads`: skip leading whitespace, decode one value, skip trailing
whitespace, and demand the input be exhausted (`Extra data` otherwise).
`none` models a raised `json.JSONDecodeError`. The fuel `l.length + 1`
always suffices because every recursion step consumes input. -/
def jparse (l : List Char) : Option JValue :=
  match parseVal (l.length + 1) (l.dropWhile jsonWS) with
  | some (v, rest) => if rest.dropWhile jsonWS = [] then some v else none
  | none => none

/-- Bounded iteration for `re.findall(r"```json\n(.*?)```", text,
re.DOTALL)`: at each position try a match; on success emit the group and
continue after the matched text (non-overlapping), else advance one
character. The fuel only bounds the iteration count; `l.length` always
suffices since every step consumes input. -/
def findallAux : Nat → List Char → List (List Char)
  | 0, _ => []
  | f + 1, l =>
    match l with
    | [] => []
    | c :: rest =>
      match tagMatchAt jsonNlTag (c :: rest) with
      | some content =>
        content ::
          findallAux f
            ((c :: rest).drop (jsonNlTag.length + content.length + fenceStr.length))
      | none => findallAux f rest

/-- `re.findall(r"```json\n(.*?)```", text, re.DOTALL)` as used by
`extract_changes_made_block`. -/
def findallJsonNl (l : List Char) : List (List Char) :=
  findallAux l.length l

/-- The two `ValueError`s that `extract_json_block` can raise, told apart
by their messages: `"No valid JSON block found in the input."` versus
`"Invalid JSON content: ..."`. -/
inductive JsonBlockErr where
  | noBlockFound
  | malformedJSON
deriving DecidableEq

/-- The tail of `extract_json_block` once a regex match was found:
`json.loads` on group 1, re-raising a decode failure as the
`MalformedJSON`-style `ValueError`. -/
def jloadsBlock (g : List Char) : Except JsonBlockErr JValue :=
  match jparse g with
  | some v => Except.ok v
  | none => Except.error JsonBlockErr.malformedJSON

/-- `extract_json_block` (identical in `llmlinter.py` and
`lint_commit.py`): search `r"```json\s*({.*?})\s*```"`, raise
`NoBlockFound` when there is no match, otherwise `json.loads` the group,
raising `MalformedJSON` on a decode error. -/
def extract_json_block (text : List Char) : Except JsonBlockErr JValue :=
  match jsonSearch text with
  | none => Except.error JsonBlockErr.noBlockFound
  | some g => jloadsBlock g

/-- The exceptions `extract_changes_made_block` can raise past the
zero-match early return: a `json.JSONDecodeError` from `json.loads`, a
`KeyError` from `data['changes_made']` on a dict lacking the key, and a
`TypeError` from subscripting a non-dict with a string. -/
inductive ChangesErr where
  | jsonDecodeError
  | keyError
  | typeErr
deriving DecidableEq

/-- The `changes_made` subscript key. -/
def changesKey : List Char := "changes_made".data

/-- The `data['changes_made']` subscript of `extract_changes_made_block`
(identical in both files) on a decoded dict: a missing key raises
`KeyError`. -/
def changesOfObj (fs : List (List Char × JValue)) :
    Except ChangesErr (Bool × JValue) :=
  match jlookup fs changesKey with
  | some v => Except.ok (true, v)
  | none => Except.error ChangesErr.keyError

/-- The decode-and-subscript step applied to the last match's stripped
content: `data = json.loads(block)` then `data['changes_made']`. -/
def changesOfLast (block : List Char) : Except ChangesErr (Bool × JValue) :=
  match jparse block with
  | none => Except.error ChangesErr.jsonDecodeError
  | some (JValue.jobj fs) => changesOfObj fs
  | some _ => Except.error ChangesErr.typeErr

/-- The body of `extract_changes_made_block` after the findall: zero
matches return the `(False, [])` pair, else the last match is stripped,
decoded and subscripted. -/
def extract_changes_made_block (text : List Char) :
    Except ChangesErr (Bool × JValue) :=
  match findallJsonNl text with
  | [] => Except.ok (false, JValue.jarr [])
  | m :: ms => changesOfLast (pyStrip ((m :: ms).getLast (List.cons_ne_nil m ms)))

/-- The retry loop of `lint_head_commit_message` in `llmlinter.py`
(`for x in range(no_of_attempts): results = send(...); if
results.strip(): break`), with the gateway modelled as the function from
attempt index to reply. Arguments: next attempt index and remaining
attempts; result: final `results` value and number of attempts made. -/
def llmlinterRetryFrom (send : Nat → List Char) : Nat → Nat → List Char × Nat
  | _, 0 => ([], 0)
  | i, 1 => (send i, i + 1)
  | i, r + 2 =>
    let res := send i
    if pyStrip res ≠ [] then (res, i + 1)
    else llmlinterRetryFrom send (i + 1) (r + 1)

/-- The `llmlinter.py` loop with its fixed budget `no_of_attempts = 3`. -/
def llmlinterRetry (send : Nat → List Char) : List Char × Nat :=
  llmlinterRetryFrom send 0 3

/-- The corresponding loop of `lint_head_commit_mesasge` in
`lint_commit.py`: its body is `results = send(...); print(results);
break` — the `break` is unconditional, so any first iteration ends the
loop. -/
def lintCommitRetryFrom (send : Nat → List Char) : Nat → Nat → List Char × Nat
  | _, 0 => ([], 0)
  | i, _ + 1 => (send i, i + 1)

/-- The `lint_commit.py` loop with its fixed budget `no_of_attempts = 3`. -/
def lintCommitRetry (send : Nat → List Char) : List Char × Nat :=
  lintCommitRetryFrom send 0 3

/-- A finite response sequence as a gateway: attempt `i` yields the `i`-th
reply (and `""` past the end, which never occurs within the budget in the
scenarios considered). -/
def respondWith (rs : List (List Char)) : Nat → List Char :=
  fun i => rs.getD i []

/-- The verdict token searched for by `print_linter_output`. -/
def lintFailTok : List Char := "LINT_FAIL".data

/-- The verdict branch of `print_linter_output` in `llmlinter.py`:
`results = results.strip()`, then `"LINT_FAIL" in results` selects the
"needs revision" verdict (`true` here); otherwise the "passed all lint
checks" verdict (`false`). -/
def print_linter_output_fails (results : List Char) : Bool :=
  decide (lintFailTok <:+: pyStrip results)

/-- Literal head of a GitHub HTTPS remote URL in the `re.match` pattern of
`get_owner_and_repo_from_git_config`. -/
def httpsLit : List Char := "https://github.com/".data

/-- Literal head of a GitHub SSH remote URL in the same pattern. -/
def sshLit : List Char := "git@github.com:".data

/-- Strip a literal from the head of the input, if present. -/
def stripLit (lit l : List Char) : Option (List Char) :=
  if lit.isPrefixOf l then some (l.drop lit.length) else none

/-- The URL-parsing step of `get_owner_and_repo_from_git_config`
(identical in both files): `re.match(r"(?:https://github\.com/|`
`git@github\.com:)([^/]+)/([^.]+)(\.git)?", url)`, returning groups 1 and
2 on a match and `None, None` otherwise. Anchored at the start; `[^/]+`
greedily takes the maximal nonempty run without `/` (backtracking cannot
shorten it before the literal `/`), `[^.]+` the maximal nonempty run
without `.`; the optional `(\.git)?` and any trailing text are ignored.
Reading `.git/config` itself is collaborator I/O and not modelled.
`parseOwnerRepo` is the group part after the matched alternation literal:
`([^/]+)/([^.]+)(\.git)?`. -/
def parseOwnerRepo (rest : List Char) : Option (List Char × List Char) :=
  match rest.dropWhile (fun c => c ≠ '/'), rest.takeWhile (fun c => c ≠ '/') with
  | '/' :: rest3, _ :: _ =>
    match rest3.takeWhile (fun c => c ≠ '.') with
    | [] => none
    | r :: rs => some (rest.takeWhile (fun c => c ≠ '/'), r :: rs)
  | _, _ => none

/-- The alternation and group structure of the whole pattern: try the HTTPS
literal, then the SSH literal, then the two groups. -/
def get_owner_and_repo_from_url (url : List Char) :
    Option (List Char × List Char) :=
  match stripLit httpsLit url with
  | some rest => parseOwnerRepo rest
  | none =>
    match stripLit sshLit url with
    | some rest => parseOwnerRepo rest
    | none => none

/-- Dropping while a predicate holds skips a run on which it holds
everywhere. -/
theorem dropWhile_append_all {p : Char → Bool} {w l : List Char}
    (h : ∀ c ∈ w, p c = true) :
    List.dropWhile p (w ++ l) = List.dropWhile p l := by
  induction w with
  | nil => rfl
  | cons c w ih =>
    rw [List.cons_append, List.dropWhile_cons, if_pos (h c (List.mem_cons_self c w))]
    exact ih fun d hd => h d (List.mem_cons_of_mem c hd)

/-- A successful lazy close search splits the input as content, delimiter,
remainder. -/
theorem lazyFindClose_sound {close l c : List Char}
    (h : lazyFindClose close l = some c) :
    ∃ post, l = c ++ close ++ post := by
  induction l generalizing c with
  | nil => simp [lazyFindClose] at h
  | cons x rest ih =>
    rw [lazyFindClose] at h
    by_cases hp : close.isPrefixOf (x :: rest)
    · rw [if_pos hp] at h
      obtain ⟨t, ht⟩ := List.isPrefixOf_iff_prefix.mp hp
      cases h
      exact ⟨t, by simpa using ht.symm⟩
    · rw [if_neg hp] at h
      cases hm : lazyFindClose close rest with
      | none => rw [hm] at h; simp at h
      | some c' =>
        rw [hm] at h
        simp only [Option.map_some', Option.some.injEq] at h
        obtain ⟨post, hpost⟩ := ih hm
        exact ⟨post, by simp [← h, hpost]⟩

/-- If the closing delimiter occurs somewhere, the lazy close search
succeeds. -/
theorem lazyFindClose_isSome {close : List Char} (mid post : List Char)
    (hne : close ≠ []) :
    (lazyFindClose close (mid ++ close ++ post)).isSome := by
  induction mid with
  | nil =>
    obtain ⟨c, cs, rfl⟩ : ∃ c cs, close = c :: cs := by
      cases close with
      | nil => exact absurd rfl hne
      | cons c cs => exact ⟨c, cs, rfl⟩
    have hpre : (c :: cs).isPrefixOf ((c :: cs) ++ post) :=
      List.isPrefixOf_iff_prefix.mpr (List.prefix_append (c :: cs) post)
    rw [List.nil_append, List.cons_append, lazyFindClose,
      if_pos (by simp)]
    simp
  | cons x mid ih =>
    rw [List.cons_append, List.cons_append, lazyFindClose]
    by_cases hp : close.isPrefixOf (x :: (mid ++ close ++ post))
    · rw [if_pos hp]; simp
    · rw [if_neg hp]
      cases hm : lazyFindClose close (mid ++ close ++ post) with
      | none => rw [hm] at ih; simp at ih
      | some c' => simp

/-- A successful tag match splits the input as tag, group, fence,
remainder. -/
theorem tagMatchAt_sound {tag l c : List Char}
    (h : tagMatchAt tag l = some c) :
    ∃ post, l = tag ++ c ++ fenceStr ++ post := by
  rw [tagMatchAt] at h
  by_cases hp : tag.isPrefixOf l
  · rw [if_pos hp] at h
    obtain ⟨t, ht⟩ := List.isPrefixOf_iff_prefix.mp hp
    have hdrop : l.drop tag.length = t := by rw [← ht]; exact List.drop_left tag t
    rw [hdrop] at h
    obtain ⟨post, hpost⟩ := lazyFindClose_sound h
    exact ⟨post, by rw [← ht, hpost]; simp⟩
  · rw [if_neg hp] at h; cases h

/-- A tag-shaped decomposition at the head of the input makes the tag
match succeed. -/
theorem tagMatchAt_isSome (tag mid post : List Char) :
    (tagMatchAt tag (tag ++ mid ++ fenceStr ++ post)).isSome := by
  rw [tagMatchAt,
    if_pos (List.isPrefixOf_iff_prefix.mpr ⟨mid ++ fenceStr ++ post, by simp⟩)]
  have : (tag ++ mid ++ fenceStr ++ post).drop tag.length =
      mid ++ fenceStr ++ post := by
    have h := List.drop_left tag (mid ++ fenceStr ++ post)
    simp only [List.append_assoc] at h ⊢
    exact h
  rw [this]
  exact lazyFindClose_isSome mid post (by simp [fenceStr])

/-- A successful `re.search` of a tag pattern splits the input as
preamble, tag, group, fence, remainder. -/
theorem tagSearch_sound {tag l c : List Char}
    (h : tagSearch tag l = some c) :
    ∃ pre post, l = pre ++ tag ++ c ++ fenceStr ++ post := by
  induction l with
  | nil => simp [tagSearch] at h
  | cons x rest ih =>
    rw [tagSearch] at h
    cases hm : tagMatchAt tag (x :: rest) with
    | some g =>
      rw [hm] at h
      cases h
      obtain ⟨post, hpost⟩ := tagMatchAt_sound hm
      exact ⟨[], post, by simpa using hpost⟩
    | none =>
      rw [hm] at h
      obtain ⟨pre, post, hsplit⟩ := ih h
      exact ⟨x :: pre, post, by simp [hsplit]⟩

/-- A match of the tag pattern at some suffix makes `re.search` on the
whole input succeed. -/
theorem tagSearch_isSome_of_suffix {tag l : List Char} (pre suf : List Char)
    (hl : l = pre ++ suf) (h : (tagMatchAt tag suf).isSome) :
    (tagSearch tag l).isSome := by
  induction pre generalizing l with
  | nil =>
    cases suf with
    | nil => simp [tagMatchAt, lazyFindClose] at h
    | cons c rest =>
      subst hl
      rw [List.nil_append, tagSearch]
      cases hm : tagMatchAt tag (c :: rest) with
      | some g => simp
      | none => rw [hm] at h; simp at h
  | cons x pre ih =>
    subst hl
    rw [List.cons_append, tagSearch]
    cases hm : tagMatchAt tag (x :: (pre ++ suf)) with
    | some g => simp
    | none => exact ih rfl

/-- A fenced block of the tag's kind anywhere in the input makes
`re.search` succeed. -/
theorem tagSearch_isSome (tag pre mid post : List Char) :
    (tagSearch tag (pre ++ tag ++ mid ++ fenceStr ++ post)).isSome := by
  refine tagSearch_isSome_of_suffix pre (tag ++ mid ++ fenceStr ++ post)
    (by simp) ?_
  have h := tagMatchAt_isSome tag mid post
  simpa [List.append_assoc] using h

/-- A successful body scan splits the input at a closing `}` whose
continuation check succeeded. -/
theorem scanBody_sound {l b : List Char} (h : scanBody l = some b) :
    ∃ rest, l = b ++ '}' :: rest ∧ fenceNext rest = true := by
  induction l generalizing b with
  | nil => simp [scanBody] at h
  | cons x rest ih =>
    rw [scanBody] at h
    by_cases hc : x = '}' ∧ fenceNext rest
    · rw [if_pos hc] at h
      cases h
      exact ⟨rest, by simp [hc.1], by simp [hc.2]⟩
    · rw [if_neg hc] at h
      cases hm : scanBody rest with
      | none => rw [hm] at h; simp at h
      | some b' =>
        rw [hm] at h
        simp only [Option.map_some', Option.some.injEq] at h
        obtain ⟨r, hr, hf⟩ := ih hm
        exact ⟨r, by simp [← h, hr], hf⟩

/-- A closable `}` somewhere makes the body scan succeed. -/
theorem scanBody_isSome (mid rest : List Char) (hf : fenceNext rest = true) :
    (scanBody (mid ++ '}' :: rest)).isSome := by
  induction mid with
  | nil =>
    rw [List.nil_append, scanBody, if_pos ⟨rfl, hf⟩]
    simp
  | cons x mid ih =>
    rw [List.cons_append, scanBody]
    by_cases hc : x = '}' ∧ fenceNext (mid ++ '}' :: rest)
    · rw [if_pos hc]; simp
    · rw [if_neg hc]
      cases hm : scanBody (mid ++ '}' :: rest) with
      | none => rw [hm] at ih; simp at ih
      | some b => simp

/-- When no earlier `}` passes the continuation check, the body scan stops
exactly at the closing `}` before `tail` and returns the body unchanged. -/
theorem scanBody_exact (mid tail : List Char) (hf : fenceNext tail = true)
    (hno : ∀ x y, mid = x ++ '}' :: y → fenceNext (y ++ '}' :: tail) = false) :
    scanBody (mid ++ '}' :: tail) = some mid := by
  induction mid with
  | nil => rw [List.nil_append, scanBody, if_pos ⟨rfl, hf⟩]
  | cons c mid ih =>
    rw [List.cons_append, scanBody]
    have hnotc : ¬(c = '}' ∧ fenceNext (mid ++ '}' :: tail)) := by
      rintro ⟨rfl, hfc⟩
      have := hno [] mid rfl
      rw [this] at hfc
      cases hfc
    rw [if_neg hnotc]
    have ihr := ih (fun x y hxy => hno (c :: x) y (by simp [hxy]))
    rw [ihr]
    simp

/-- A json-fenced object block as recognised by the `extract_json_block`
pattern: a `"```json"` tag, whitespace, a brace-delimited body, whitespace,
and a closing fence, at an arbitrary position. -/
def JsonBlockShape (l : List Char) : Prop :=
  ∃ pre w1 mid w2 post,
    l = pre ++ jsonTag ++ w1 ++ '{' :: (mid ++ '}' :: (w2 ++ fenceStr ++ post)) ∧
    (∀ c ∈ w1, pyWS c = true) ∧ (∀ c ∈ w2, pyWS c = true)

/-- A tag that cannot match at the head of the input: its first character
is a backtick and the input starts otherwise. -/
theorem tagMatchAt_none_of_head {tag : List Char} {x : Char} {t : List Char}
    (htag : tag = '`' :: t) (hx : x ≠ '`') {rest : List Char} :
    tagMatchAt tag (x :: rest) = none := by
  rw [tagMatchAt, if_neg]
  intro hp
  exact hx (((List.cons_prefix_cons).mp
    (by rw [htag] at hp; exact List.isPrefixOf_iff_prefix.mp hp)).1.symm)

/-- `re.search` of a backtick-headed tag pattern skips a backtick-free
preamble. -/
theorem tagSearch_skip {tag : List Char} {t : List Char}
    (htag : tag = '`' :: t) {pre : List Char}
    (hpre : ∀ c ∈ pre, c ≠ '`') (suf : List Char) :
    tagSearch tag (pre ++ suf) = tagSearch tag suf := by
  induction pre with
  | nil => rfl
  | cons x pre ih =>
    rw [List.cons_append, tagSearch,
      tagMatchAt_none_of_head htag (hpre x (List.mem_cons_self x pre))]
    exact ih fun c hc => hpre c (List.mem_cons_of_mem x hc)

/-- A head match is what `re.search` returns. -/
theorem tagSearch_of_matchAt {tag l g : List Char} {t : List Char}
    (htag : tag = '`' :: t) (h : tagMatchAt tag l = some g) :
    tagSearch tag l = some g := by
  cases l with
  | nil =>
    rw [tagMatchAt, htag] at h
    rw [if_neg (by intro hp; cases List.isPrefixOf_iff_prefix.mp hp with
      | intro w hw => simp at hw)] at h
    cases h
  | cons c rest => rw [tagSearch, h]

/-- With a backtick-free group, the lazy close search returns exactly the
group before the closing fence. -/
theorem lazyFindClose_exact {a : List Char} (hfree : ∀ c ∈ a, c ≠ '`')
    (post : List Char) :
    lazyFindClose fenceStr (a ++ fenceStr ++ post) = some a := by
  induction a with
  | nil =>
    rw [List.nil_append]
    show lazyFindClose fenceStr ('`' :: ('`' :: '`' :: post)) = some []
    rw [lazyFindClose, if_pos]
    exact List.isPrefixOf_iff_prefix.mpr ⟨post, rfl⟩
  | cons x a ih =>
    rw [List.cons_append, List.cons_append, lazyFindClose, if_neg]
    · rw [ih fun c hc => hfree c (List.mem_cons_of_mem x hc)]
      rfl
    · intro hp
      exact hfree x (List.mem_cons_self x a)
        (((List.cons_prefix_cons).mp (List.isPrefixOf_iff_prefix.mp hp)).1.symm)

/-- With a backtick-free group, a tag match at the block returns exactly
the group. -/
theorem tagMatchAt_exact {tag a : List Char} (hfree : ∀ c ∈ a, c ≠ '`')
    (post : List Char) :
    tagMatchAt tag (tag ++ a ++ fenceStr ++ post) = some a := by
  rw [tagMatchAt, if_pos (List.isPrefixOf_iff_prefix.mpr
    ⟨a ++ fenceStr ++ post, by simp⟩)]
  have hdrop : (tag ++ a ++ fenceStr ++ post).drop tag.length =
      a ++ fenceStr ++ post := by
    have h := List.drop_left tag (a ++ fenceStr ++ post)
    simp only [List.append_assoc] at h ⊢
    exact h
  rw [hdrop]
  exact lazyFindClose_exact hfree post

/-- A successful json match splits the input as tag, whitespace, braced
body, whitespace, fence, remainder, and returns the braced group. -/
theorem jsonMatchAt_sound {l g : List Char} (h : jsonMatchAt l = some g) :
    ∃ w1 mid w2 post,
      l = jsonTag ++ (w1 ++ '{' :: (mid ++ '}' :: (w2 ++ fenceStr ++ post))) ∧
      (∀ c ∈ w1, pyWS c = true) ∧ (∀ c ∈ w2, pyWS c = true) ∧
      g = '{' :: (mid ++ ['}']) := by
  rw [jsonMatchAt] at h
  split at h
  · rename_i hp
    obtain ⟨t, ht⟩ := List.isPrefixOf_iff_prefix.mp hp
    have hdrop : l.drop jsonTag.length = t := by
      rw [← ht]; exact List.drop_left _ _
    rw [hdrop] at h
    split at h
    · rename_i rest heq
      cases hs : scanBody rest with
      | none => rw [hs] at h; cases h
      | some b =>
        rw [hs] at h
        simp only [Option.map_some', Option.some.injEq] at h
        obtain ⟨r2, hr2, hfn⟩ := scanBody_sound hs
        rw [fenceNext] at hfn
        obtain ⟨post, hpost⟩ := List.isPrefixOf_iff_prefix.mp hfn
        refine ⟨t.takeWhile pyWS, b, r2.takeWhile pyWS, post, ?_, ?_, ?_, h.symm⟩
        · rw [← ht]
          congr 1
          calc t = t.takeWhile pyWS ++ t.dropWhile pyWS :=
                (List.takeWhile_append_dropWhile pyWS t).symm
            _ = t.takeWhile pyWS ++ '{' :: (b ++ '}' :: r2) := by
                rw [show t.dropWhile pyWS = dropWS t from rfl, heq, hr2]
            _ = t.takeWhile pyWS ++
                '{' :: (b ++ '}' :: (r2.takeWhile pyWS ++ fenceStr ++ post)) := by
                have hr2eq : r2 = r2.takeWhile pyWS ++ fenceStr ++ post := by
                  calc r2 = r2.takeWhile pyWS ++ r2.dropWhile pyWS :=
                        (List.takeWhile_append_dropWhile pyWS r2).symm
                    _ = r2.takeWhile pyWS ++ (fenceStr ++ post) := by
                        rw [show r2.dropWhile pyWS = dropWS r2 from rfl, ← hpost]
                    _ = r2.takeWhile pyWS ++ fenceStr ++ post := by
                        rw [List.append_assoc]
                conv_lhs => rw [hr2eq]
        · exact fun c hc => List.mem_takeWhile_imp hc
        · exact fun c hc => List.mem_takeWhile_imp hc
    · cases h
  · cases h

/-- A successful json search happens at some suffix. -/
theorem jsonSearch_sound {l g : List Char} (h : jsonSearch l = some g) :
    ∃ pre suf, l = pre ++ suf ∧ jsonMatchAt suf = some g := by
  induction l with
  | nil => simp [jsonSearch] at h
  | cons x rest ih =>
    rw [jsonSearch] at h
    cases hm : jsonMatchAt (x :: rest) with
    | some g2 =>
      rw [hm] at h
      cases h
      exact ⟨[], x :: rest, rfl, hm⟩
    | none =>
      rw [hm] at h
      obtain ⟨pre, suf, hl, hsuf⟩ := ih h
      exact ⟨x :: pre, suf, by simp [hl], hsuf⟩

/-- A successful `extract_json_block` regex search exhibits a json-fenced
object block in the input. -/
theorem jsonSearch_shape {l g : List Char} (h : jsonSearch l = some g) :
    JsonBlockShape l := by
  obtain ⟨pre, suf, hl, hsuf⟩ := jsonSearch_sound h
  obtain ⟨w1, mid, w2, post, hsplit, hw1, hw2, _⟩ := jsonMatchAt_sound hsuf
  exact ⟨pre, w1, mid, w2, post, by simp [hl, hsplit, List.append_assoc], hw1, hw2⟩

/-- A json-shaped block at the head makes the json match succeed. -/
theorem jsonMatchAt_isSome (w1 mid rest2 : List Char)
    (hw1 : ∀ c ∈ w1, pyWS c = true) (hf : fenceNext rest2 = true) :
    (jsonMatchAt (jsonTag ++ (w1 ++ '{' :: (mid ++ '}' :: rest2)))).isSome := by
  rw [jsonMatchAt, if_pos (List.isPrefixOf_iff_prefix.mpr
    ⟨w1 ++ '{' :: (mid ++ '}' :: rest2), rfl⟩)]
  rw [List.drop_left jsonTag (w1 ++ '{' :: (mid ++ '}' :: rest2))]
  have hdws : dropWS (w1 ++ '{' :: (mid ++ '}' :: rest2)) =
      '{' :: (mid ++ '}' :: rest2) := by
    rw [dropWS, dropWhile_append_all hw1, List.dropWhile_cons,
      if_neg (by decide)]
  rw [hdws]
  have hsb := scanBody_isSome mid rest2 hf
  cases hs : scanBody (mid ++ '}' :: rest2) with
  | none => rw [hs] at hsb; simp at hsb
  | some b =>
    show ((scanBody (mid ++ '}' :: rest2)).map
      (fun b => '{' :: (b ++ ['}']))).isSome = true
    rw [hs]
    rfl

/-- A json match at some suffix makes the search on the whole input
succeed. -/
theorem jsonSearch_isSome_of_suffix {l : List Char} (pre suf : List Char)
    (hl : l = pre ++ suf) (h : (jsonMatchAt suf).isSome) :
    (jsonSearch l).isSome := by
  induction pre generalizing l with
  | nil =>
    cases suf with
    | nil => simp [jsonMatchAt, jsonTag] at h
    | cons c rest =>
      subst hl
      rw [List.nil_append, jsonSearch]
      cases hm : jsonMatchAt (c :: rest) with
      | some g => simp
      | none => rw [hm] at h; simp at h
  | cons x pre ih =>
    subst hl
    rw [List.cons_append, jsonSearch]
    cases hm : jsonMatchAt (x :: (pre ++ suf)) with
    | some g => simp
    | none => exact ih rfl

/-- A json-fenced object block anywhere in the input makes the search
succeed. -/
theorem jsonSearch_of_shape {l : List Char} (h : JsonBlockShape l) :
    (jsonSearch l).isSome := by
  obtain ⟨pre, w1, mid, w2, post, hl, hw1, hw2⟩ := h
  refine jsonSearch_isSome_of_suffix pre
    (jsonTag ++ (w1 ++ '{' :: (mid ++ '}' :: (w2 ++ fenceStr ++ post))))
    (by simp [hl, List.append_assoc]) ?_
  refine jsonMatchAt_isSome w1 mid (w2 ++ fenceStr ++ post) hw1 ?_
  rw [fenceNext, dropWS, List.append_assoc, dropWhile_append_all hw2]
  show fenceStr.isPrefixOf (List.dropWhile pyWS ('`' :: ('`' :: '`' :: post))) = true
  rw [List.dropWhile_cons, if_neg (by decide)]
  exact List.isPrefixOf_iff_prefix.mpr ⟨post, rfl⟩

/-- The json match fails at any position not starting with a backtick. -/
theorem jsonMatchAt_none_of_head {x : Char} (hx : x ≠ '`') (rest : List Char) :
    jsonMatchAt (x :: rest) = none := by
  rw [jsonMatchAt, if_neg]
  intro hp
  have hp2 : ('`' :: ('`' :: '`' :: "json".data)) <+: x :: rest :=
    List.isPrefixOf_iff_prefix.mp hp
  exact hx ((List.cons_prefix_cons.mp hp2).1.symm)

/-- The json search skips a backtick-free preamble. -/
theorem jsonSearch_skip {pre : List Char} (hpre : ∀ c ∈ pre, c ≠ '`')
    (suf : List Char) : jsonSearch (pre ++ suf) = jsonSearch suf := by
  induction pre with
  | nil => rfl
  | cons x pre ih =>
    rw [List.cons_append, jsonSearch,
      jsonMatchAt_none_of_head (hpre x (List.mem_cons_self x pre))]
    exact ih fun c hc => hpre c (List.mem_cons_of_mem x hc)

/-- A json match at the head is what the search returns. -/
theorem jsonSearch_of_matchAt {l g : List Char} (h : jsonMatchAt l = some g) :
    jsonSearch l = some g := by
  cases l with
  | nil =>
    rw [jsonMatchAt, if_neg (by decide)] at h
    cases h
  | cons c rest => rw [jsonSearch, h]

/-- With no earlier closable `}`, the json match at a block returns the
block's braced group exactly. -/
theorem jsonMatchAt_exact (w1 mid tail : List Char)
    (hw1 : ∀ c ∈ w1, pyWS c = true) (hf : fenceNext tail = true)
    (hno : ∀ x y, mid = x ++ '}' :: y → fenceNext (y ++ '}' :: tail) = false) :
    jsonMatchAt (jsonTag ++ (w1 ++ '{' :: (mid ++ '}' :: tail))) =
      some ('{' :: (mid ++ ['}'])) := by
  rw [jsonMatchAt, if_pos (List.isPrefixOf_iff_prefix.mpr ⟨_, rfl⟩),
    List.drop_left jsonTag _]
  have hdws : dropWS (w1 ++ '{' :: (mid ++ '}' :: tail)) =
      '{' :: (mid ++ '}' :: tail) := by
    rw [dropWS, dropWhile_append_all hw1, List.dropWhile_cons, if_neg (by decide)]
  rw [hdws]
  show ((scanBody (mid ++ '}' :: tail)).map (fun b => '{' :: (b ++ ['}']))) = _
  rw [scanBody_exact mid tail hf hno]
  rfl

/-- A nonempty findall exhibits a `"```json\n"`-tagged fenced block in the
input. -/
theorem findallAux_shape {f : Nat} {l : List Char} (h : findallAux f l ≠ []) :
    ∃ pre mid post, l = pre ++ jsonNlTag ++ mid ++ fenceStr ++ post := by
  induction f generalizing l with
  | zero => simp [findallAux] at h
  | succ f ih =>
    cases l with
    | nil => simp [findallAux] at h
    | cons c rest =>
      rw [findallAux] at h
      cases hm : tagMatchAt jsonNlTag (c :: rest) with
      | some content =>
        obtain ⟨post, hpost⟩ := tagMatchAt_sound hm
        exact ⟨[], content, post, by simp [hpost, List.append_assoc]⟩
      | none =>
        rw [hm] at h
        obtain ⟨pre, mid, post, hsplit⟩ := ih h
        exact ⟨c :: pre, mid, post, by simp [hsplit]⟩

/-- A `"```json\n"`-tagged fenced block anywhere makes findall nonempty
(provided the fuel covers the input, as `findallJsonNl` arranges). -/
theorem findallAux_ne_nil {f : Nat} {l : List Char} (pre suf : List Char)
    (hf : l.length ≤ f) (hl : l = pre ++ suf)
    (h : (tagMatchAt jsonNlTag suf).isSome) : findallAux f l ≠ [] := by
  induction pre generalizing l f with
  | nil =>
    cases suf with
    | nil => rw [tagMatchAt, if_neg (by decide)] at h; simp at h
    | cons c rest =>
      subst hl
      rw [List.nil_append] at hf ⊢
      obtain ⟨f2, rfl⟩ : ∃ f2, f = f2 + 1 := by
        cases f with
        | zero => simp at hf
        | succ f2 => exact ⟨f2, rfl⟩
      rw [findallAux]
      cases hm : tagMatchAt jsonNlTag (c :: rest) with
      | some content => simp
      | none => rw [hm] at h; simp at h
  | cons x pre ih =>
    subst hl
    obtain ⟨f2, rfl⟩ : ∃ f2, f = f2 + 1 := by
      cases f with
      | zero => simp at hf
      | succ f2 => exact ⟨f2, rfl⟩
    rw [List.cons_append, findallAux]
    cases hm : tagMatchAt jsonNlTag (x :: (pre ++ suf)) with
    | some content => simp
    | none =>
      refine ih ?_ rfl
      have hlen : (x :: (pre ++ suf)).length ≤ f2 + 1 := by
        rw [← List.cons_append]; exact hf
      simpa using Nat.le_of_succ_le_succ hlen

/-- The in-scope form of `findallAux_ne_nil` for `findallJsonNl`. -/
theorem findallJsonNl_ne_nil {l : List Char} (pre suf : List Char)
    (hl : l = pre ++ suf) (h : (tagMatchAt jsonNlTag suf).isSome) :
    findallJsonNl l ≠ [] :=
  findallAux_ne_nil pre suf (Nat.le_refl _) hl h

/-- A GitHub remote URL in the sense of the `re.match` pattern: one of the
two literal heads, a nonempty slash-free owner, `/`, a nonempty dot-free
repo run, and arbitrary trailing text. -/
def GithubUrlMatch (url : List Char) : Prop :=
  ∃ pfx o r t, (pfx = httpsLit ∨ pfx = sshLit) ∧
    url = pfx ++ o ++ '/' :: (r ++ t) ∧
    o ≠ [] ∧ '/' ∉ o ∧ r ≠ [] ∧ '.' ∉ r

/-- A successful group parse splits the remainder as owner, slash, repo,
trailing text. -/
theorem parseOwnerRepo_sound {rest o r : List Char}
    (h : parseOwnerRepo rest = some (o, r)) :
    ∃ t, rest = o ++ '/' :: (r ++ t) ∧ o ≠ [] ∧ '/' ∉ o ∧ r ≠ [] ∧ '.' ∉ r := by
  rw [parseOwnerRepo] at h
  split at h
  · rename_i rest3 c cs heqd heqt
    split at h
    · cases h
    · rename_i r1 rs heqr
      cases h
      refine ⟨rest3.dropWhile (fun c => c ≠ '.'), ?_, ?_, ?_, ?_, ?_⟩
      · calc rest = rest.takeWhile (fun c => c ≠ '/') ++
              rest.dropWhile (fun c => c ≠ '/') :=
              (List.takeWhile_append_dropWhile _ _).symm
          _ = rest.takeWhile (fun c => c ≠ '/') ++ '/' :: rest3 := by rw [heqd]
          _ = rest.takeWhile (fun c => c ≠ '/') ++
              '/' :: (r1 :: rs ++ rest3.dropWhile (fun c => c ≠ '.')) := by
              rw [← heqr, List.takeWhile_append_dropWhile]
      · rw [heqt]; exact List.cons_ne_nil c cs
      · intro hmem
        have h2 := List.mem_takeWhile_imp hmem
        simp at h2
      · exact List.cons_ne_nil r1 rs
      · intro hmem
        rw [← heqr] at hmem
        have h2 := List.mem_takeWhile_imp hmem
        simp at h2
  · cases h

/-- A stripped literal exhibits the literal as a prefix. -/
theorem stripLit_sound {lit url rest : List Char}
    (h : stripLit lit url = some rest) : url = lit ++ rest := by
  rw [stripLit] at h
  split at h
  · rename_i hp
    cases h
    obtain ⟨t, ht⟩ := List.isPrefixOf_iff_prefix.mp hp
    rw [← ht, List.drop_left]
  · cases h

/-- A successful owner/repo extraction exhibits a GitHub-shaped URL. -/
theorem get_owner_and_repo_sound {url o r : List Char}
    (h : get_owner_and_repo_from_url url = some (o, r)) :
    GithubUrlMatch url := by
  rw [get_owner_and_repo_from_url] at h
  split at h
  · rename_i rest hh
    obtain ⟨t, hrest, ho, hos, hr, hrd⟩ := parseOwnerRepo_sound h
    exact ⟨httpsLit, o, r, t, Or.inl rfl,
      by rw [stripLit_sound hh, hrest, List.append_assoc], ho, hos, hr, hrd⟩
  · split at h
    · rename_i rest hh
      obtain ⟨t, hrest, ho, hos, hr, hrd⟩ := parseOwnerRepo_sound h
      exact ⟨sshLit, o, r, t, Or.inr rfl,
        by rw [stripLit_sound hh, hrest, List.append_assoc], ho, hos, hr, hrd⟩
    · cases h

/-- A fenced block of a given tag at an arbitrary position: opening tag,
any content, closing fence. -/
def TagBlockShape (tag l : List Char) : Prop :=
  ∃ pre mid post, l = pre ++ tag ++ mid ++ fenceStr ++ post

/-- C2: the `llmlinter.py` retry loop makes exactly 3 attempts on
`["", "", "ok"]` and returns `"ok"`, and 3 attempts on `["", "", ""]`
returning `""` with no exception — but the `lint_commit.py` entry point's
loop `break`s unconditionally on its first iteration, so on
`["", "", "ok"]` it makes exactly 1 attempt and ends with `results = ""`,
contradicting the claim for that entry point. -/
theorem retry_attempt_budget_behaviour :
    llmlinterRetry (respondWith ["".data, "".data, "ok".data]) =
      ("ok".data, 3) ∧
    llmlinterRetry (respondWith ["".data, "".data, "".data]) =
      ("".data, 3) ∧
    lintCommitRetry (respondWith ["".data, "".data, "ok".data]) =
      ("".data, 1) :=
  ⟨by decide, by decide, by decide⟩

/-- C3: `print_linter_output` selects the fail verdict exactly when the
literal token `LINT_FAIL` occurs as a substring of the stripped response;
a response containing only `Verdict: LINT_PASS`, or neither token, selects
the pass verdict. -/
theorem freeform_verdict_fail_iff_token :
    (∀ results : List Char, print_linter_output_fails results = true ↔
      ∃ a b, pyStrip results = a ++ lintFailTok ++ b) ∧
    print_linter_output_fails "Verdict: LINT_PASS".data = false ∧
    print_linter_output_fails "No verdict given at all.".data = false ∧
    print_linter_output_fails "Bad title.\nVerdict: LINT_FAIL".data = true := by
  refine ⟨?_, by decide, by decide, by decide⟩
  intro results
  rw [print_linter_output_fails, decide_eq_true_iff]
  constructor
  · rintro ⟨s, t, hst⟩
    exact ⟨s, t, hst.symm⟩
  · rintro ⟨a, b, hab⟩
    exact ⟨a, b, hab.symm⟩

/-- Witness for C3 at a concrete response with the token mid-text. -/
theorem freeform_verdict_fail_iff_token_witness :
    print_linter_output_fails "so: LINT_FAIL stands".data = true :=
  (freeform_verdict_fail_iff_token.1 "so: LINT_FAIL stands".data).mpr
    ⟨"so: ".data, " stands".data, by decide⟩

/-- C6: the remote-URL regex maps the SSH and HTTPS GitHub forms to their
owner/repo groups, and any URL that is not GitHub-shaped to `(None,
None)`. -/
theorem github_url_parsing :
    get_owner_and_repo_from_url "git@github.com:acme/widgets.git".data =
      some ("acme".data, "widgets".data) ∧
    get_owner_and_repo_from_url "https://github.com/acme/widgets".data =
      some ("acme".data, "widgets".data) ∧
    ∀ url : List Char, ¬ GithubUrlMatch url →
      get_owner_and_repo_from_url url = none := by
  refine ⟨by decide, by decide, ?_⟩
  intro url h
  cases hp : get_owner_and_repo_from_url url with
  | none => rfl
  | some pr =>
    exfalso
    exact h (get_owner_and_repo_sound (by rw [hp]))

/-- Witness for C6: a non-GitHub URL yields `(None, None)`. -/
theorem github_url_parsing_witness :
    get_owner_and_repo_from_url "https://gitlab.com/acme/widgets".data =
      none := by
  refine github_url_parsing.2.2 _ ?_
  rintro ⟨pfx, o, r, t, hpfx | hpfx, hurl, -, -, -, -⟩ <;> subst hpfx
  · have hpre : httpsLit.isPrefixOf "https://gitlab.com/acme/widgets".data :=
      List.isPrefixOf_iff_prefix.mpr
        ⟨o ++ '/' :: (r ++ t), by rw [hurl, List.append_assoc]⟩
    revert hpre
    decide
  · have hpre : sshLit.isPrefixOf "https://gitlab.com/acme/widgets".data :=
      List.isPrefixOf_iff_prefix.mpr
        ⟨o ++ '/' :: (r ++ t), by rw [hurl, List.append_assoc]⟩
    revert hpre
    decide

/-- C7: on an input with no fenced block of the requested kind, the
markdown and text extractors return the empty string (they are total and
raise nothing), while the json extractor raises the `NoBlockFound`
`ValueError`. -/
theorem missing_block_extractor_outcomes (text : List Char) :
    (¬ TagBlockShape mdTag text → extract_markdown_block text = []) ∧
    (¬ TagBlockShape textTag text → extract_text_block text = []) ∧
    (¬ JsonBlockShape text →
      extract_json_block text = Except.error JsonBlockErr.noBlockFound) := by
  refine ⟨?_, ?_, ?_⟩
  · intro h
    rw [extract_markdown_block]
    cases hs : tagSearch mdTag text with
    | none => rfl
    | some g =>
      obtain ⟨pre, post, hsplit⟩ := tagSearch_sound hs
      exact absurd ⟨pre, g, post, hsplit⟩ h
  · intro h
    rw [extract_text_block]
    cases hs : tagSearch textTag text with
    | none => rfl
    | some g =>
      obtain ⟨pre, post, hsplit⟩ := tagSearch_sound hs
      exact absurd ⟨pre, g, post, hsplit⟩ h
  · intro h
    rw [extract_json_block]
    cases hs : jsonSearch text with
    | none => rfl
    | some g => exact absurd (jsonSearch_shape hs) h

/-- Witness for C7 at a fence-free input. -/
theorem missing_block_extractor_outcomes_witness :
    extract_markdown_block "no fences here".data = [] ∧
    extract_text_block "no fences here".data = [] ∧
    extract_json_block "no fences here".data =
      Except.error JsonBlockErr.noBlockFound := by
  have t := missing_block_extractor_outcomes "no fences here".data
  refine ⟨t.1 ?_, t.2.1 ?_, t.2.2 ?_⟩
  · rintro ⟨pre, mid, post, hsplit⟩
    have h := tagSearch_isSome mdTag pre mid post
    rw [← hsplit] at h
    revert h
    decide
  · rintro ⟨pre, mid, post, hsplit⟩
    have h := tagSearch_isSome textTag pre mid post
    rw [← hsplit] at h
    revert h
    decide
  · intro hsh
    have h := jsonSearch_of_shape hsh
    revert h
    decide

/-- C8: with zero `"```json\n"`-fenced blocks in the input,
`extract_changes_made_block` returns the pair `(False, [])` and raises
nothing. -/
theorem changes_made_no_block_pair (text : List Char)
    (h : ¬ TagBlockShape jsonNlTag text) :
    extract_changes_made_block text = Except.ok (false, JValue.jarr []) := by
  have hnil : findallJsonNl text = [] := by
    cases hf : findallJsonNl text with
    | nil => rfl
    | cons m ms =>
      exfalso
      have hne : findallAux text.length text ≠ [] := by
        rw [show findallAux text.length text = findallJsonNl text from rfl, hf]
        simp
      obtain ⟨pre, mid, post, hsplit⟩ := findallAux_shape hne
      exact h ⟨pre, mid, post, hsplit⟩
  rw [extract_changes_made_block, hnil]

/-- Witness for C8 at a block-free input. -/
theorem changes_made_no_block_pair_witness :
    extract_changes_made_block "just words".data =
      Except.ok (false, JValue.jarr []) := by
  refine changes_made_no_block_pair "just words".data ?_
  rintro ⟨pre, mid, post, hsplit⟩
  have h := tagSearch_isSome jsonNlTag pre mid post
  rw [← hsplit] at h
  revert h
  decide

/-- C10: when a json-tagged fence is present but no block has the
brace-delimited shape the pattern demands (`{` after the tag's optional
whitespace, `}` before the closing fence), `extract_json_block` raises
`NoBlockFound` — not `MalformedJSON`. -/
theorem json_extractor_requires_object_braces (text : List Char)
    (_hfence : TagBlockShape jsonNlTag text) (hshape : ¬ JsonBlockShape text) :
    extract_json_block text = Except.error JsonBlockErr.noBlockFound := by
  rw [extract_json_block]
  cases hs : jsonSearch text with
  | none => rfl
  | some g => exact absurd (jsonSearch_shape hs) hshape

/-- Witness for C10 at a json fence holding a non-object (an array). -/
theorem json_extractor_requires_object_braces_witness :
    extract_json_block "```json\n[1, 2]\n```".data =
      Except.error JsonBlockErr.noBlockFound := by
  refine json_extractor_requires_object_braces "```json\n[1, 2]\n```".data
    ⟨[], "[1, 2]\n".data, [], by decide⟩ ?_
  intro hsh
  have h := jsonSearch_of_shape hsh
  revert h
  decide

/-- C9: when at least one `"```json\n"`-fenced block exists but the last
one's stripped content is not valid JSON, or decodes to an object lacking
the `changes_made` key, `extract_changes_made_block` raises instead of
returning a pair. -/
theorem changes_made_raises_on_bad_last_block (text m : List Char)
    (ms : List (List Char)) (hfa : findallJsonNl text = m :: ms)
    (hbad :
      jparse (pyStrip ((m :: ms).getLast (List.cons_ne_nil m ms))) = none ∨
      ∃ fs, jparse (pyStrip ((m :: ms).getLast (List.cons_ne_nil m ms))) =
          some (JValue.jobj fs) ∧ jlookup fs changesKey = none) :
    ∃ e, extract_changes_made_block text = Except.error e := by
  rcases hbad with hnone | ⟨fs, hsome, hlk⟩
  · refine ⟨ChangesErr.jsonDecodeError, ?_⟩
    rw [extract_changes_made_block, hfa]
    show changesOfLast (pyStrip ((m :: ms).getLast (List.cons_ne_nil m ms))) =
      Except.error ChangesErr.jsonDecodeError
    rw [changesOfLast, hnone]
  · refine ⟨ChangesErr.keyError, ?_⟩
    rw [extract_changes_made_block, hfa]
    show changesOfLast (pyStrip ((m :: ms).getLast (List.cons_ne_nil m ms))) =
      Except.error ChangesErr.keyError
    rw [changesOfLast, hsome]
    show changesOfObj fs = Except.error ChangesErr.keyError
    rw [changesOfObj, hlk]

/-- Witness for C9 at a block whose content is not JSON. -/
theorem changes_made_raises_on_bad_last_block_witness :
    ∃ e, extract_changes_made_block "```json\nnope\n```".data =
      Except.error e :=
  changes_made_raises_on_bad_last_block "```json\nnope\n```".data
    "nope\n".data [] (by decide) (Or.inl rfl)

/-- C4: a found block with undecodable content raises the
`MalformedJSON`-style `ValueError`, a missing block the
`NoBlockFound`-style one, and the two are distinct. -/
theorem json_extractor_error_taxonomy (text : List Char) :
    (∀ g, jsonSearch text = some g → jparse g = none →
      extract_json_block text = Except.error JsonBlockErr.malformedJSON) ∧
    (jsonSearch text = none →
      extract_json_block text = Except.error JsonBlockErr.noBlockFound) ∧
    JsonBlockErr.malformedJSON ≠ JsonBlockErr.noBlockFound := by
  refine ⟨?_, ?_, by decide⟩
  · intro g hs hp
    rw [extract_json_block, hs]
    show jloadsBlock g = Except.error JsonBlockErr.malformedJSON
    unfold jloadsBlock
    rw [hp]
  · intro hs
    rw [extract_json_block, hs]

/-- Witness for C4: both error paths at concrete inputs. -/
theorem json_extractor_error_taxonomy_witness :
    extract_json_block "```json\n\x7bnot json\x7d\n```".data =
      Except.error JsonBlockErr.malformedJSON ∧
    extract_json_block "just text".data =
      Except.error JsonBlockErr.noBlockFound :=
  ⟨(json_extractor_error_taxonomy "```json\n\x7bnot json\x7d\n```".data).1
      "\x7bnot json\x7d".data (by decide) rfl,
   (json_extractor_error_taxonomy "just text".data).2.1 (by decide)⟩

/-- The continuation check always passes on a newline followed by the
closing fence. -/
theorem fenceNext_nl (rest2 : List Char) :
    fenceNext ('\n' :: (fenceStr ++ rest2)) = true := by
  rw [fenceNext, dropWS, List.dropWhile_cons, if_pos (by decide)]
  show fenceStr.isPrefixOf (List.dropWhile pyWS ('`' :: ('`' :: '`' :: rest2))) =
    true
  rw [List.dropWhile_cons, if_neg (by decide)]
  exact List.isPrefixOf_iff_prefix.mpr ⟨rest2, rfl⟩

/-- C1 counterexample: with two fenced blocks of the requested kind, the
extractors return the first block's content — `re.search` takes the
leftmost match — not the last block's. -/
theorem block_extractor_first_not_last_cx :
    extract_markdown_block
      "```markdown\nAAA\n``` then ```markdown\nBBB\n```".data = "AAA".data ∧
    extract_markdown_block
      "```markdown\nAAA\n``` then ```markdown\nBBB\n```".data ≠ "BBB".data ∧
    extract_json_block
      "```json\n\x7b\"a\": 1\x7d\n``` then ```json\n\x7b\"a\": 2\x7d\n```".data =
      Except.ok (JValue.jobj [("a".data, JValue.jnum 1)]) ∧
    extract_json_block
      "```json\n\x7b\"a\": 1\x7d\n``` then ```json\n\x7b\"a\": 2\x7d\n```".data ≠
      Except.ok (JValue.jobj [("a".data, JValue.jnum 2)]) := by
  refine ⟨by decide, by decide, rfl, ?_⟩
  intro h
  rw [show extract_json_block
      "```json\n\x7b\"a\": 1\x7d\n``` then ```json\n\x7b\"a\": 2\x7d\n```".data =
      Except.ok (JValue.jobj [("a".data, JValue.jnum 1)]) from rfl] at h
  simp at h

/-- C1 amended: with two or more fenced blocks of the requested kind, the
block extractor returns the inner content of the first such block (the
side conditions keep the first block's fences unambiguous: no backtick
before or inside the first group, and for json no `}` inside the first
body). -/
theorem block_extractor_returns_first (pre a mid b post : List Char)
    (hpre : ∀ c ∈ pre, c ≠ '`') (ha : ∀ c ∈ a, c ≠ '`')
    (haj : ∀ c ∈ a, c ≠ '}') :
    extract_markdown_block
      (pre ++ (mdTag ++ a ++ fenceStr ++ (mid ++ mdTag ++ b ++ fenceStr ++ post)))
      = pyStrip a ∧
    extract_text_block
      (pre ++ (textTag ++ a ++ fenceStr ++ (mid ++ textTag ++ b ++ fenceStr ++ post)))
      = pyStrip a ∧
    extract_json_block
      (pre ++ (jsonTag ++ ('\n' :: '{' :: (a ++ '}' ::
        ('\n' :: (fenceStr ++ (mid ++ jsonTag ++ ('\n' :: '{' :: (b ++ '}' ::
          ('\n' :: (fenceStr ++ post)))))))))))
      = jloadsBlock ('{' :: (a ++ ['}'])) := by
  refine ⟨?_, ?_, ?_⟩
  · have h1 : tagSearch mdTag
        (pre ++ (mdTag ++ a ++ fenceStr ++
          (mid ++ mdTag ++ b ++ fenceStr ++ post))) = some a := by
      have hskip : tagSearch mdTag
          (pre ++ (mdTag ++ a ++ fenceStr ++
            (mid ++ mdTag ++ b ++ fenceStr ++ post))) =
          tagSearch mdTag
            (mdTag ++ a ++ fenceStr ++
              (mid ++ mdTag ++ b ++ fenceStr ++ post)) :=
        tagSearch_skip rfl hpre _
      rw [hskip]
      exact tagSearch_of_matchAt rfl (tagMatchAt_exact ha _)
    rw [extract_markdown_block, h1]
  · have h1 : tagSearch textTag
        (pre ++ (textTag ++ a ++ fenceStr ++
          (mid ++ textTag ++ b ++ fenceStr ++ post))) = some a := by
      have hskip : tagSearch textTag
          (pre ++ (textTag ++ a ++ fenceStr ++
            (mid ++ textTag ++ b ++ fenceStr ++ post))) =
          tagSearch textTag
            (textTag ++ a ++ fenceStr ++
              (mid ++ textTag ++ b ++ fenceStr ++ post)) :=
        tagSearch_skip rfl hpre _
      rw [hskip]
      exact tagSearch_of_matchAt rfl (tagMatchAt_exact ha _)
    rw [extract_text_block, h1]
  · have h1 : jsonSearch
        (pre ++ (jsonTag ++ ('\n' :: '{' :: (a ++ '}' ::
          ('\n' :: (fenceStr ++ (mid ++ jsonTag ++ ('\n' :: '{' :: (b ++ '}' ::
            ('\n' :: (fenceStr ++ post)))))))))))
        = some ('{' :: (a ++ ['}'])) := by
      rw [jsonSearch_skip hpre]
      refine jsonSearch_of_matchAt ?_
      have he := jsonMatchAt_exact ['\n'] a
        ('\n' :: (fenceStr ++ (mid ++ jsonTag ++ ('\n' :: '{' :: (b ++ '}' ::
          ('\n' :: (fenceStr ++ post)))))))
        (by intro c hc; cases hc with
          | head => decide
          | tail _ h2 => cases h2)
        (fenceNext_nl _)
        (by
          intro x y hxy
          exfalso
          refine absurd rfl (haj '}' ?_)
          rw [hxy]
          exact List.mem_append_right x (List.mem_cons_self _ _))
      exact he
    rw [extract_json_block, h1]

/-- Witness for C1's amended statement at a concrete two-block input. -/
theorem block_extractor_returns_first_witness :
    extract_markdown_block
      ("see: ".data ++ (mdTag ++ " first ".data ++ fenceStr ++
        (" or ".data ++ mdTag ++ "second".data ++ fenceStr ++ ".".data)))
      = pyStrip " first ".data ∧
    extract_text_block
      ("see: ".data ++ (textTag ++ " first ".data ++ fenceStr ++
        (" or ".data ++ textTag ++ "second".data ++ fenceStr ++ ".".data)))
      = pyStrip " first ".data ∧
    extract_json_block
      ("see: ".data ++ (jsonTag ++ ('\n' :: '{' :: (" first ".data ++ '}' ::
        ('\n' :: (fenceStr ++ (" or ".data ++ jsonTag ++ ('\n' :: '{' ::
          ("second".data ++ '}' :: ('\n' :: (fenceStr ++ ".".data)))))))))))
      = jloadsBlock ('{' :: (" first ".data ++ ['}'])) :=
  block_extractor_returns_first "see: ".data " first ".data " or ".data
    "second".data ".".data (by decide) (by decide) (by decide)

/-- Lowercase hexadecimal digit, as `json.dumps` emits in `\u00xx`
escapes. -/
def hexDigChar (n : Nat) : Char :=
  if n < 10 then Char.ofNat (48 + n) else Char.ofNat (87 + n)

/-- Per-character escaping of `json.dumps` (default `ensure_ascii=True`)
for characters up to `0x7f`: quote and backslash escaped, the five short
control escapes, `\u00xx` for other control characters, all else
verbatim. -/
def escChar (c : Char) : List Char :=
  if c = '"' then '\\' :: '"' :: []
  else if c = '\\' then '\\' :: '\\' :: []
  else if c = '\n' then '\\' :: 'n' :: []
  else if c = '\t' then '\\' :: 't' :: []
  else if c = '\r' then '\\' :: 'r' :: []
  else if c.toNat = 8 then '\\' :: 'b' :: []
  else if c.toNat = 12 then '\\' :: 'f' :: []
  else if c.toNat < 0x20 then
    '\\' :: 'u' :: '0' :: '0' ::
      hexDigChar (c.toNat / 16) :: hexDigChar (c.toNat % 16) :: []
  else c :: []

/-- The escaped body of a `json.dumps` string literal. -/
def escBody : List Char → List Char
  | [] => []
  | c :: s => escChar c ++ escBody s

/-- A complete `json.dumps` string literal. -/
def escStr (s : List Char) : List Char := '"' :: (escBody s ++ ['"'])

/-- Decimal digits of a natural number (no sign, no leading zero), as
Python prints an `int`; the fuel is only a recursion bound and `n + 1`
always suffices. -/
def natToDigitsAux : Nat → Nat → List Char → List Char
  | 0, _, acc => acc
  | f + 1, n, acc =>
    let d := Char.ofNat (48 + n % 10)
    if n / 10 = 0 then d :: acc else natToDigitsAux f (n / 10) (d :: acc)

/-- Python's decimal rendering of a natural number. -/
def natToDigits (n : Nat) : List Char := natToDigitsAux (n + 1) n []

/-- `json.dumps` rendering of a Python bool. -/
def boolLit (b : Bool) : List Char :=
  if b then "true".data else "false".data

/-- The `", "`-separated continuation of a `json.dumps` list of strings
after its first element. -/
def strArrTail : List (List Char) → List Char
  | [] => []
  | s :: ss => ',' :: ' ' :: (escStr s ++ strArrTail ss)

/-- `json.dumps` of a Python list of strings. -/
def dumpsStrArr (ss : List (List Char)) : List Char :=
  match ss with
  | [] => '[' :: ']' :: []
  | s :: ss => '[' :: (escStr s ++ (strArrTail ss ++ [']']))

/-- One `"key": value` member of a `json.dumps` object. -/
def dumpField (key v : List Char) : List Char :=
  escStr key ++ ':' :: ' ' :: v

/-- The `fixed_message` sub-object of the structured-mode verdict schema
(the prompt of `lint_head_commit_mesasge` in `lint_commit.py`, lines
280-287). -/
structure FixedMessage where
  title : List Char
  body : List Char
  code_review : List Char
  pr : List Char
  full_text : List Char

/-- A structured-mode verdict object per the schema of that prompt (lines
267-287): verdict, title_length, title_status, has_pr, has_code_review,
suggestions, fixed_message. -/
structure VerdictObject where
  verdict : List Char
  title_length : Nat
  title_status : List Char
  has_pr : Bool
  has_code_review : Bool
  suggestions : List (List Char)
  fixed_message : FixedMessage

/-- Members of `json.dumps` of a `FixedMessage` dict, in schema order. -/
def fixedInner (m : FixedMessage) : List Char :=
  dumpField "title".data (escStr m.title) ++ ',' :: ' ' ::
  (dumpField "body".data (escStr m.body) ++ ',' :: ' ' ::
  (dumpField "code_review".data (escStr m.code_review) ++ ',' :: ' ' ::
  (dumpField "pr".data (escStr m.pr) ++ ',' :: ' ' ::
  dumpField "full_text".data (escStr m.full_text))))

/-- `json.dumps` of a `FixedMessage` dict. -/
def dumpFixed (m : FixedMessage) : List Char :=
  '{' :: (fixedInner m ++ ['}'])

/-- Members of `json.dumps` of a `VerdictObject` dict, in schema order
with the default `", "` / `": "` separators. -/
def verdictInner (v : VerdictObject) : List Char :=
  dumpField "verdict".data (escStr v.verdict) ++ ',' :: ' ' ::
  (dumpField "title_length".data (natToDigits v.title_length) ++ ',' :: ' ' ::
  (dumpField "title_status".data (escStr v.title_status) ++ ',' :: ' ' ::
  (dumpField "has_pr".data (boolLit v.has_pr) ++ ',' :: ' ' ::
  (dumpField "has_code_review".data (boolLit v.has_code_review) ++ ',' :: ' ' ::
  (dumpField "suggestions".data (dumpsStrArr v.suggestions) ++ ',' :: ' ' ::
  dumpField "fixed_message".data (dumpFixed v.fixed_message))))))

/-- `json.dumps` of a structured-mode verdict object. -/
def dumpVerdict (v : VerdictObject) : List Char :=
  '{' :: (verdictInner v ++ ['}'])

/-- Wrapping serialized text in a json-tagged fenced block:
`"```json\n" + s + "\n```"`. -/
def wrapJson (s : List Char) : List Char :=
  jsonTag ++ ('\n' :: (s ++ '\n' :: fenceStr))

/-- The `JValue` denoted by a `FixedMessage` (what `json.loads` rebuilds
from its serialization). -/
def FixedMessage.toJValue (m : FixedMessage) : JValue :=
  JValue.jobj
    [("title".data, JValue.jstr m.title),
     ("body".data, JValue.jstr m.body),
     ("code_review".data, JValue.jstr m.code_review),
     ("pr".data, JValue.jstr m.pr),
     ("full_text".data, JValue.jstr m.full_text)]

/-- The `JValue` denoted by a `VerdictObject`. -/
def VerdictObject.toJValue (v : VerdictObject) : JValue :=
  JValue.jobj
    [("verdict".data, JValue.jstr v.verdict),
     ("title_length".data, JValue.jnum v.title_length),
     ("title_status".data, JValue.jstr v.title_status),
     ("has_pr".data, JValue.jbool v.has_pr),
     ("has_code_review".data, JValue.jbool v.has_code_review),
     ("suggestions".data, JValue.jarr (v.suggestions.map JValue.jstr)),
     ("fixed_message".data, v.fixed_message.toJValue)]

/-- All characters of a string are ASCII (codepoint below `0x80`), the
range on which `escChar` is exactly the `json.dumps` escaping. -/
def allAscii (s : List Char) : Bool :=
  s.all (fun c => decide (c.toNat < 0x80))

/-- All string content of a verdict object is ASCII. -/
def VerdictObject.allAsciiFields (v : VerdictObject) : Bool :=
  allAscii v.verdict && allAscii v.title_status &&
  v.suggestions.all allAscii &&
  allAscii v.fixed_message.title && allAscii v.fixed_message.body &&
  allAscii v.fixed_message.code_review && allAscii v.fixed_message.pr &&
  allAscii v.fixed_message.full_text

/-- A concrete structured-mode verdict object with ordinary ASCII field
content, used to instantiate the round-trip result. -/
def rtV : VerdictObject :=
  { verdict := "LINT_FAIL".data
    title_length := 62
    title_status := "too long".data
    has_pr := false
    has_code_review := true
    suggestions := ["Shorten the title.".data, "Add a PR line.".data]
    fixed_message :=
      { title := "Fix bug".data
        body := "Details.".data
        code_review := "Code Review: 12".data
        pr := "PR: 7".data
        full_text := "Fix bug".data } }

/-- A concrete structured-mode verdict object whose suggestion text
contains a closing brace followed by a fence literal, which the lazy
group of `r"```json\s*(\x7b.*?\x7d)\s*```"` mistakes for the end of the
block. -/
def cxV : VerdictObject :=
  { verdict := "ok".data
    title_length := 1
    title_status := "ok".data
    has_pr := true
    has_code_review := true
    suggestions := ["see \x7ba\x7d```md".data]
    fixed_message :=
      { title := "a".data
        body := "b".data
        code_review := "c".data
        pr := "d".data
        full_text := "e".data } }

/-- Each hexadecimal digit printed by `hexDigChar` reads back to its
value. -/
theorem hexVal_hexDigChar : ∀ n < 16, hexVal (hexDigChar n) = some n := by
  decide

/-- The plain-character step of the string scanner. -/
theorem parseStr_cons_plain {c : Char} (h1 : c ≠ '"') (h2 : c ≠ '\\')
    (h3 : ¬ c.toNat < 0x20) (l : List Char) :
    parseStr (c :: l) = (parseStr l).map (fun p => (c :: p.1, p.2)) := by
  rw [parseStr.eq_def]
  simp only []
  rw [if_neg h1, if_neg h2, if_neg h3]

/-- `json.dumps` escaping decodes back to the original ASCII string: the
scanner consumes exactly the escaped body and the closing quote. -/
theorem parseStr_escBody (s : List Char) (rest : List Char)
    (hA : allAscii s = true) :
    parseStr (escBody s ++ '"' :: rest) = some (s, rest) := by
  induction s with
  | nil =>
    show parseStr ('"' :: rest) = some ([], rest)
    rw [parseStr.eq_def]
    simp only []
    rw [if_true]
  | cons c s ih =>
    have hc : c.toNat < 0x80 := by
      have h := (List.all_eq_true.mp hA) c (List.mem_cons_self c s)
      simpa using h
    have hs : allAscii s = true := by
      refine List.all_eq_true.mpr ?_
      intro x hx
      exact (List.all_eq_true.mp hA) x (List.mem_cons_of_mem c hx)
    have ihr := ih hs
    rw [escBody]
    by_cases h1 : c = '"'
    · subst h1
      show parseStr ('\\' :: '"' :: (escBody s ++ '"' :: rest)) =
        some ('"' :: s, rest)
      rw [parseStr.eq_def]
      simp only []
      rw [if_neg (by decide), if_true]
      show (parseStr (escBody s ++ '"' :: rest)).map
        (fun p => ('"' :: p.1, p.2)) = some ('"' :: s, rest)
      rw [ihr]
      rfl
    · by_cases h2 : c = '\\'
      · subst h2
        show parseStr ('\\' :: '\\' :: (escBody s ++ '"' :: rest)) =
          some ('\\' :: s, rest)
        rw [parseStr.eq_def]
        simp only []
        rw [if_neg (by decide), if_true]
        show (parseStr (escBody s ++ '"' :: rest)).map
          (fun p => ('\\' :: p.1, p.2)) = some ('\\' :: s, rest)
        rw [ihr]
        rfl
      · by_cases h3 : c = '\n'
        · subst h3
          show parseStr ('\\' :: 'n' :: (escBody s ++ '"' :: rest)) =
            some ('\n' :: s, rest)
          rw [parseStr.eq_def]
          simp only []
          rw [if_neg (by decide), if_true]
          show (parseStr (escBody s ++ '"' :: rest)).map
            (fun p => ('\n' :: p.1, p.2)) = some ('\n' :: s, rest)
          rw [ihr]
          rfl
        · by_cases h4 : c = '\t'
          · subst h4
            show parseStr ('\\' :: 't' :: (escBody s ++ '"' :: rest)) =
              some ('\t' :: s, rest)
            rw [parseStr.eq_def]
            simp only []
            rw [if_neg (by decide), if_true]
            show (parseStr (escBody s ++ '"' :: rest)).map
              (fun p => ('\t' :: p.1, p.2)) = some ('\t' :: s, rest)
            rw [ihr]
            rfl
          · by_cases h5 : c = '\r'
            · subst h5
              show parseStr ('\\' :: 'r' :: (escBody s ++ '"' :: rest)) =
                some ('\r' :: s, rest)
              rw [parseStr.eq_def]
              simp only []
              rw [if_neg (by decide), if_true]
              show (parseStr (escBody s ++ '"' :: rest)).map
                (fun p => ('\r' :: p.1, p.2)) = some ('\r' :: s, rest)
              rw [ihr]
              rfl
            · by_cases h6 : c.toNat = 8
              · have hc8 : c = Char.ofNat 8 := by rw [← h6, Char.ofNat_toNat]
                subst hc8
                show parseStr ('\\' :: 'b' :: (escBody s ++ '"' :: rest)) =
                  some (Char.ofNat 8 :: s, rest)
                rw [parseStr.eq_def]
                simp only []
                rw [if_neg (by decide), if_true]
                show (parseStr (escBody s ++ '"' :: rest)).map
                  (fun p => (Char.ofNat 8 :: p.1, p.2)) =
                  some (Char.ofNat 8 :: s, rest)
                rw [ihr]
                rfl
              · by_cases h7 : c.toNat = 12
                · have hc12 : c = Char.ofNat 12 := by
                    rw [← h7, Char.ofNat_toNat]
                  subst hc12
                  show parseStr ('\\' :: 'f' :: (escBody s ++ '"' :: rest)) =
                    some (Char.ofNat 12 :: s, rest)
                  rw [parseStr.eq_def]
                  simp only []
                  rw [if_neg (by decide), if_true]
                  show (parseStr (escBody s ++ '"' :: rest)).map
                    (fun p => (Char.ofNat 12 :: p.1, p.2)) =
                    some (Char.ofNat 12 :: s, rest)
                  rw [ihr]
                  rfl
                · by_cases h8 : c.toNat < 0x20
                  · have hesc : escChar c = '\\' :: 'u' :: '0' :: '0' ::
                        hexDigChar (c.toNat / 16) ::
                        hexDigChar (c.toNat % 16) :: [] := by
                      rw [escChar, if_neg h1, if_neg h2, if_neg h3, if_neg h4,
                        if_neg h5, if_neg h6, if_neg h7, if_pos h8]
                    rw [hesc]
                    show parseStr ('\\' :: 'u' :: '0' :: '0' ::
                        hexDigChar (c.toNat / 16) :: hexDigChar (c.toNat % 16)
                        :: (escBody s ++ '"' :: rest)) = some (c :: s, rest)
                    rw [parseStr.eq_def]
                    simp only []
                    have hhi : hexVal (hexDigChar (c.toNat / 16)) =
                        some (c.toNat / 16) := hexVal_hexDigChar _ (by omega)
                    have hlo : hexVal (hexDigChar (c.toNat % 16)) =
                        some (c.toNat % 16) := hexVal_hexDigChar _ (by omega)
                    rw [if_neg (by decide), if_true,
                      show hexVal '0' = some 0 from rfl, hhi, hlo]
                    show (parseStr (escBody s ++ '"' :: rest)).map
                      (fun p => (Char.ofNat
                        (((0 * 16 + 0) * 16 + c.toNat / 16) * 16 + c.toNat % 16)
                        :: p.1, p.2)) = some (c :: s, rest)
                    rw [ihr]
                    have hval : ((0 * 16 + 0) * 16 + c.toNat / 16) * 16 +
                        c.toNat % 16 = c.toNat := by omega
                    rw [hval, Char.ofNat_toNat]
                    rfl
                  · have hesc : escChar c = [c] := by
                      rw [escChar, if_neg h1, if_neg h2, if_neg h3, if_neg h4,
                        if_neg h5, if_neg h6, if_neg h7, if_neg h8]
                    rw [hesc]
                    show parseStr (c :: (escBody s ++ '"' :: rest)) =
                      some (c :: s, rest)
                    rw [parseStr_cons_plain h1 h2 h8, ihr]
                    rfl

/-- Reference form of Python's decimal digits, convenient for induction:
most significant digits first. -/
def natDigs (n : Nat) : List Char :=
  if n < 10 then [Char.ofNat (48 + n)]
  else natDigs (n / 10) ++ [Char.ofNat (48 + n % 10)]
termination_by n
decreasing_by
  exact Nat.div_lt_self (by omega) (by omega)

/-- The accumulator rendering agrees with the reference form. -/
theorem natToDigitsAux_eq (n : Nat) : ∀ f acc, n < f →
    natToDigitsAux f n acc = natDigs n ++ acc := by
  induction n using Nat.strong_induction_on with
  | _ n ih =>
    intro f acc hf
    obtain ⟨f2, rfl⟩ : ∃ f2, f = f2 + 1 := ⟨f - 1, by omega⟩
    rw [natToDigitsAux]
    by_cases h10 : n / 10 = 0
    · have hlt : n < 10 := by omega
      rw [if_pos h10, natDigs, if_pos hlt, Nat.mod_eq_of_lt hlt]
      rfl
    · rw [if_neg h10, natDigs, if_neg (by omega)]
      rw [ih (n / 10) (Nat.div_lt_self (by omega) (by omega)) f2 _ (by omega)]
      simp

/-- Python's rendering in terms of the reference form. -/
theorem natToDigits_eq (n : Nat) : natToDigits n = natDigs n := by
  rw [natToDigits, natToDigitsAux_eq n (n + 1) [] (by omega)]
  simp

/-- The decimal digit characters: recognised by `isDigit`, carrying their
value, and nonzero when the digit is. -/
theorem digitChar_spec : ∀ r < 10, isDigit (Char.ofNat (48 + r)) = true ∧
    (Char.ofNat (48 + r)).toNat = 48 + r ∧
    (r ≠ 0 → Char.ofNat (48 + r) ≠ '0') := by
  decide

/-- Taking while a predicate holds passes over a run on which it holds
everywhere. -/
theorem takeWhile_append_all {p : Char → Bool} {xs ys : List Char}
    (h : ∀ c ∈ xs, p c = true) :
    List.takeWhile p (xs ++ ys) = xs ++ List.takeWhile p ys := by
  induction xs with
  | nil => rfl
  | cons c xs ih =>
    rw [List.cons_append, List.takeWhile_cons,
      if_pos (h c (List.mem_cons_self c xs)), List.cons_append,
      ih fun d hd => h d (List.mem_cons_of_mem c hd)]

/-- The reference digits are nonempty, all decimal digits, and carry the
number's value. -/
theorem natDigs_spec (n : Nat) :
    natDigs n ≠ [] ∧ (∀ c ∈ natDigs n, isDigit c = true) ∧
    digitsVal (natDigs n) = n := by
  induction n using Nat.strong_induction_on with
  | _ n ih =>
    by_cases hlt : n < 10
    · rw [natDigs, if_pos hlt]
      obtain ⟨hd, ht, -⟩ := digitChar_spec n hlt
      refine ⟨by simp, ?_, ?_⟩
      · intro c hc
        rw [List.mem_singleton] at hc
        subst hc
        exact hd
      · show 10 * 0 + ((Char.ofNat (48 + n)).toNat - 48) = n
        rw [ht]
        omega
    · rw [natDigs, if_neg hlt]
      have hr : n % 10 < 10 := Nat.mod_lt _ (by omega)
      obtain ⟨hd, ht, -⟩ := digitChar_spec (n % 10) hr
      obtain ⟨ih1, ih2, ih3⟩ :=
        ih (n / 10) (Nat.div_lt_self (by omega) (by omega))
      refine ⟨by simp, ?_, ?_⟩
      · intro c hc
        rw [List.mem_append] at hc
        rcases hc with hc | hc
        · exact ih2 c hc
        · rw [List.mem_singleton] at hc
          subst hc
          exact hd
      · rw [digitsVal, List.foldl_append]
        show 10 * List.foldl (fun a c => 10 * a + (c.toNat - 48)) 0
          (natDigs (n / 10)) + ((Char.ofNat (48 + n % 10)).toNat - 48) = n
        rw [show List.foldl (fun a c => 10 * a + (c.toNat - 48)) 0
          (natDigs (n / 10)) = digitsVal (natDigs (n / 10)) from rfl, ih3, ht]
        omega

/-- A positive number's leading reference digit is nonzero. -/
theorem natDigs_head (n : Nat) (hn : n ≠ 0) :
    ∃ d ds, natDigs n = d :: ds ∧ d ≠ '0' := by
  induction n using Nat.strong_induction_on with
  | _ n ih =>
    by_cases hlt : n < 10
    · rw [natDigs, if_pos hlt]
      exact ⟨_, [], rfl, (digitChar_spec n hlt).2.2 hn⟩
    · rw [natDigs, if_neg hlt]
      obtain ⟨d, ds, heq, hne⟩ :=
        ih (n / 10) (Nat.div_lt_self (by omega) (by omega)) (by omega)
      exact ⟨d, ds ++ [Char.ofNat (48 + n % 10)], by rw [heq]; simp, hne⟩

/-- A decimal digit is not a minus sign or a zero unless it renders
zero. -/
theorem isDigit_ne_minus {d : Char} (h : isDigit d = true) : d ≠ '-' := by
  rw [isDigit] at h
  simp only [decide_eq_true_eq] at h
  intro he
  subst he
  revert h
  decide

/-- Python's decimal rendering of a `Nat` reads back as that integer when
the continuation starts with no digit and admits no fraction or
exponent. -/
theorem parseNum_natToDigits (n : Nat) (rest : List Char)
    (hdt : rest.takeWhile isDigit = [])
    (hfr : jsonFrac rest = none) (hex : jsonExp rest = none) :
    parseNum (natToDigits n ++ rest) = some (JValue.jnum n, rest) := by
  have hdrop : rest.dropWhile isDigit = rest := by
    have h := List.takeWhile_append_dropWhile isDigit rest
    rw [hdt] at h
    simpa using h
  rw [natToDigits_eq]
  by_cases hn : n = 0
  · subst hn
    rw [show natDigs 0 = ['0'] from by rw [natDigs]; rfl]
    show parseNum ('0' :: rest) = some (JValue.jnum 0, rest)
    show (if '0' = '-' then jsonNumBody true rest
      else jsonNumBody false ('0' :: rest)) = some (JValue.jnum 0, rest)
    rw [if_neg (by decide)]
    show (if '0' = '0' then jsonNumFinish false ['0'] rest
      else if isDigit '0' then jsonNumFinish false
        ('0' :: rest.takeWhile isDigit) (rest.dropWhile isDigit)
      else none) = some (JValue.jnum 0, rest)
    rw [if_pos rfl, jsonNumFinish, hfr, hex]
    rfl
  · obtain ⟨d, ds, heq, hdne⟩ := natDigs_head n hn
    obtain ⟨-, hall, hval⟩ := natDigs_spec n
    have hdd : isDigit d = true := hall d (by rw [heq]; exact List.mem_cons_self d ds)
    have hds : ∀ c ∈ ds, isDigit c = true := by
      intro c hc
      exact hall c (by rw [heq]; exact List.mem_cons_of_mem d hc)
    rw [heq, List.cons_append]
    show (if d = '-' then jsonNumBody true (ds ++ rest)
      else jsonNumBody false (d :: (ds ++ rest))) =
      some (JValue.jnum n, rest)
    rw [if_neg (isDigit_ne_minus hdd)]
    show (if d = '0' then jsonNumFinish false ['0'] (ds ++ rest)
      else if isDigit d then jsonNumFinish false
        (d :: (ds ++ rest).takeWhile isDigit) ((ds ++ rest).dropWhile isDigit)
      else none) = some (JValue.jnum n, rest)
    rw [if_neg hdne, if_pos hdd, takeWhile_append_all hds,
      dropWhile_append_all hds, hdt, hdrop, List.append_nil,
      jsonNumFinish, hfr, hex]
    show some (JValue.jnum (Int.ofNat (digitsVal (d :: ds))), rest) =
      some (JValue.jnum n, rest)
    rw [show (d :: ds) = natDigs n from heq.symm, hval]
    rfl

/-- A digit character's codepoint lies in the decimal range. -/
theorem isDigit_bounds {d : Char} (h : isDigit d = true) :
    48 ≤ d.toNat ∧ d.toNat < 58 := by
  rw [isDigit] at h
  simp only [decide_eq_true_eq] at h
  obtain ⟨h1, h2⟩ := h
  rw [Char.le_def] at h1 h2
  exact ⟨h1, Nat.lt_of_le_of_lt h2 (by decide)⟩

/-- The value dispatcher hands a digit-headed input to the number
scanner. -/
theorem parseVal_digit (f : Nat) {d : Char} (hd : isDigit d = true)
    (l : List Char) : parseVal (f + 1) (d :: l) = parseNum (d :: l) := by
  obtain ⟨h1, h2⟩ := isDigit_bounds hd
  have hofn : d = Char.ofNat (48 + (d.toNat - 48)) := by
    rw [show 48 + (d.toNat - 48) = d.toNat by omega, Char.ofNat_toNat]
  obtain ⟨k, hk, hdk⟩ : ∃ k, k < 10 ∧ d = Char.ofNat (48 + k) :=
    ⟨d.toNat - 48, by omega, hofn⟩
  subst hdk
  interval_cases k <;> rfl

/-- The value dispatcher on a string literal. -/
theorem parseVal_escStr (f : Nat) (s rest : List Char)
    (hA : allAscii s = true) :
    parseVal (f + 1) (escStr s ++ rest) = some (JValue.jstr s, rest) := by
  rw [escStr, List.cons_append, List.append_assoc]
  show (parseStr (escBody s ++ ('"' :: rest))).map
    (fun p => (JValue.jstr p.1, p.2)) = some (JValue.jstr s, rest)
  rw [parseStr_escBody s rest hA]
  rfl

/-- The value dispatcher on a bool literal. -/
theorem parseVal_boolLit (f : Nat) (b : Bool) (rest : List Char) :
    parseVal (f + 1) (boolLit b ++ rest) = some (JValue.jbool b, rest) := by
  cases b <;> rfl

/-- The value dispatcher on a printed natural number followed by a comma
or a closing brace/bracket. -/
theorem parseVal_natToDigits (f n : Nat) {c : Char} (rest : List Char)
    (hc1 : isDigit c = false) (hc2 : c ≠ '.') (hc3 : c ≠ 'e') (hc4 : c ≠ 'E') :
    parseVal (f + 1) (natToDigits n ++ c :: rest) =
      some (JValue.jnum n, c :: rest) := by
  have hdt : (c :: rest).takeWhile isDigit = [] := by
    rw [List.takeWhile_cons, hc1]
    rfl
  have hfr : jsonFrac (c :: rest) = none := by
    rw [jsonFrac.eq_def]
    simp only []
    rw [if_neg hc2]
  have hex : jsonExp (c :: rest) = none := by
    rw [jsonExp.eq_def]
    simp only []
    rw [if_neg (by rintro (h | h) <;> [exact hc3 h; exact hc4 h])]
  have hnum := parseNum_natToDigits n (c :: rest) hdt hfr hex
  obtain ⟨d, ds, heq⟩ : ∃ d ds, natToDigits n = d :: ds := by
    rw [natToDigits_eq]
    obtain ⟨hne, -, -⟩ := natDigs_spec n
    cases hh : natDigs n with
    | nil => exact absurd hh hne
    | cons d ds => exact ⟨d, ds, rfl⟩
  have hdd : isDigit d = true := by
    obtain ⟨-, hall, -⟩ := natDigs_spec n
    refine hall d ?_
    rw [← natToDigits_eq, heq]
    exact List.mem_cons_self d ds
  rw [heq, List.cons_append, parseVal_digit f hdd, ← List.cons_append, ← heq]
  exact hnum

/-- Dropping json whitespace stops at a non-whitespace head. -/
theorem dropWhile_jsonWS_stop {c : Char} (h : jsonWS c = false)
    (l : List Char) : List.dropWhile jsonWS (c :: l) = c :: l := by
  rw [List.dropWhile_cons, h]
  rfl

/-- Dropping json whitespace passes one space. -/
theorem dropWhile_jsonWS_space (l : List Char) :
    List.dropWhile jsonWS (' ' :: l) = List.dropWhile jsonWS l := by
  rw [List.dropWhile_cons]
  rfl

/-- Dropping json whitespace stops at a string literal. -/
theorem dropWhile_jsonWS_escStr (s l : List Char) :
    List.dropWhile jsonWS (escStr s ++ l) = escStr s ++ l := by
  rw [escStr, List.cons_append, dropWhile_jsonWS_stop (by decide)]

/-- One member step of the object loop that continues with a comma: a
quoted ASCII key, colon, space, a value parsed by `pv`, comma, space. -/
theorem parseMembers_field_more
    (pv : List Char → Option (JValue × List Char)) (fl : Nat)
    (key valEnc more : List Char) (acc : List (List Char × JValue))
    (v : JValue) (hA : allAscii key = true)
    (hv : pv (List.dropWhile jsonWS (' ' :: (valEnc ++ ',' :: ' ' :: more))) =
      some (v, ',' :: ' ' :: more)) :
    parseMembers pv (fl + 1)
      (escStr key ++ ':' :: ' ' :: (valEnc ++ ',' :: ' ' :: more)) acc =
      parseMembers pv fl (List.dropWhile jsonWS (' ' :: more))
        (dictInsert acc key v) := by
  have hshape : escStr key ++ ':' :: ' ' :: (valEnc ++ ',' :: ' ' :: more) =
      '"' :: (escBody key ++
        '"' :: (':' :: ' ' :: (valEnc ++ ',' :: ' ' :: more))) := by
    simp [escStr, List.append_assoc]
  rw [hshape, parseMembers.eq_def]
  simp only []
  rw [parseStr_escBody key _ hA]
  simp only []
  rw [dropWhile_jsonWS_stop (by decide)]
  simp only []
  rw [hv]
  simp only []
  rw [dropWhile_jsonWS_stop (by decide)]
  rfl

/-- The final member step of the object loop, closing with `}`. -/
theorem parseMembers_field_close
    (pv : List Char → Option (JValue × List Char)) (fl : Nat)
    (key valEnc r : List Char) (acc : List (List Char × JValue))
    (v : JValue) (hA : allAscii key = true)
    (hv : pv (List.dropWhile jsonWS (' ' :: (valEnc ++ '}' :: r))) =
      some (v, '}' :: r)) :
    parseMembers pv (fl + 1)
      (escStr key ++ ':' :: ' ' :: (valEnc ++ '}' :: r)) acc =
      some (JValue.jobj (dictInsert acc key v), r) := by
  have hshape : escStr key ++ ':' :: ' ' :: (valEnc ++ '}' :: r) =
      '"' :: (escBody key ++ '"' :: (':' :: ' ' :: (valEnc ++ '}' :: r))) := by
    simp [escStr, List.append_assoc]
  rw [hshape, parseMembers.eq_def]
  simp only []
  rw [parseStr_escBody key _ hA]
  simp only []
  rw [dropWhile_jsonWS_stop (by decide)]
  simp only []
  rw [hv]
  simp only []
  rw [dropWhile_jsonWS_stop (by decide)]
  rfl

/-- One element step of the array loop that continues with a comma. -/
theorem parseItems_step_more
    (pv : List Char → Option (JValue × List Char)) (fl : Nat)
    (l r2 : List Char) (acc : List JValue) (v : JValue)
    (hpv : pv l = some (v, ',' :: ' ' :: r2)) :
    parseItems pv (fl + 1) l acc =
      parseItems pv fl (List.dropWhile jsonWS (' ' :: r2)) (acc ++ [v]) := by
  rw [parseItems.eq_def]
  simp only []
  rw [hpv]
  simp only []
  rw [dropWhile_jsonWS_stop (by decide)]
  rfl

/-- The final element step of the array loop, closing with `]`. -/
theorem parseItems_step_close
    (pv : List Char → Option (JValue × List Char)) (fl : Nat)
    (l r2 : List Char) (acc : List JValue) (v : JValue)
    (hpv : pv l = some (v, ']' :: r2)) :
    parseItems pv (fl + 1) l acc = some (JValue.jarr (acc ++ [v]), r2) := by
  rw [parseItems.eq_def]
  simp only []
  rw [hpv]
  simp only []
  rw [dropWhile_jsonWS_stop (by decide)]
  rfl
/-- The array loop consumes a `json.dumps` list-of-strings body: first
element, then the `", "`-separated tail, then the closing bracket. -/
theorem parseItems_escStr_loop (f : Nat) (ss : List (List Char)) :
    ∀ (s : List Char) (acc : List JValue) (rest : List Char) (fl : Nat),
    ss.length < fl → allAscii s = true → ss.all allAscii = true →
    parseItems (parseVal (f + 1)) fl
      (escStr s ++ (strArrTail ss ++ ']' :: rest)) acc =
      some (JValue.jarr (acc ++ (s :: ss).map JValue.jstr), rest) := by
  induction ss with
  | nil =>
    intro s acc rest fl hfl hA hAs
    obtain ⟨fl2, rfl⟩ : ∃ fl2, fl = fl2 + 1 := ⟨fl - 1, by omega⟩
    exact (parseItems_step_close _ fl2 _ rest acc (JValue.jstr s)
      (parseVal_escStr f s _ hA)).trans rfl
  | cons s2 ss2 ih =>
    intro s acc rest fl hfl hA hAs
    obtain ⟨fl2, rfl⟩ : ∃ fl2, fl = fl2 + 1 := ⟨fl - 1, by omega⟩
    have hAs2 : allAscii s2 = true ∧ ss2.all allAscii = true := by
      simpa using hAs
    have hassoc : escStr s ++ (strArrTail (s2 :: ss2) ++ ']' :: rest) =
        escStr s ++ ',' :: ' ' ::
          (escStr s2 ++ (strArrTail ss2 ++ ']' :: rest)) := by
      simp [strArrTail, List.append_assoc]
    rw [hassoc]
    refine (parseItems_step_more _ fl2 _ _ acc (JValue.jstr s)
      (parseVal_escStr f s _ hA)).trans ?_
    rw [dropWhile_jsonWS_space, dropWhile_jsonWS_escStr]
    rw [ih s2 (acc ++ [JValue.jstr s]) rest fl2
      (by simp at hfl; omega) hAs2.1 hAs2.2]
    simp

/-- The value dispatcher on a `json.dumps` list of strings. -/
theorem parseVal_strArr (f : Nat) (ss : List (List Char)) (rest : List Char)
    (hAs : ss.all allAscii = true) (hlen : ss.length ≤ f + 1) :
    parseVal (f + 2) (dumpsStrArr ss ++ rest) =
      some (JValue.jarr (ss.map JValue.jstr), rest) := by
  cases ss with
  | nil => rfl
  | cons s ss2 =>
    have hAs2 : allAscii s = true ∧ ss2.all allAscii = true := by
      simpa using hAs
    rw [show dumpsStrArr (s :: ss2) ++ rest =
        '[' :: ('"' :: ((escBody s ++ ['"']) ++
          (strArrTail ss2 ++ ']' :: rest))) from by
      simp [dumpsStrArr, escStr, List.append_assoc]]
    show parseItems (parseVal (f + 1)) (f + 2)
      ('"' :: ((escBody s ++ ['"']) ++ (strArrTail ss2 ++ ']' :: rest))) [] =
      some (JValue.jarr ((s :: ss2).map JValue.jstr), rest)
    exact (parseItems_escStr_loop f ss2 s [] rest (f + 2)
      (by simp at hlen; omega) hAs2.1 hAs2.2).trans (by simp)
/-- Decimal digits are not json whitespace. -/
theorem jsonWS_of_isDigit {d : Char} (h : isDigit d = true) :
    jsonWS d = false := by
  obtain ⟨h1, -⟩ := isDigit_bounds h
  rw [jsonWS]
  simp only [decide_eq_false_iff_not]
  rintro (rfl | rfl | rfl | rfl) <;> exact absurd h1 (by decide)

/-- Dropping json whitespace stops at a printed natural number. -/
theorem dropWhile_jsonWS_natToDigits (n : Nat) (l : List Char) :
    List.dropWhile jsonWS (natToDigits n ++ l) = natToDigits n ++ l := by
  obtain ⟨d, ds, heq⟩ : ∃ d ds, natToDigits n = d :: ds := by
    rw [natToDigits_eq]
    obtain ⟨hne, -, -⟩ := natDigs_spec n
    cases hh : natDigs n with
    | nil => exact absurd hh hne
    | cons d ds => exact ⟨d, ds, rfl⟩
  have hdd : isDigit d = true := by
    obtain ⟨-, hall, -⟩ := natDigs_spec n
    refine hall d ?_
    rw [← natToDigits_eq, heq]
    exact List.mem_cons_self d ds
  rw [heq, List.cons_append, dropWhile_jsonWS_stop (jsonWS_of_isDigit hdd)]

/-- Dropping json whitespace stops at a bool literal. -/
theorem dropWhile_jsonWS_boolLit (b : Bool) (l : List Char) :
    List.dropWhile jsonWS (boolLit b ++ l) = boolLit b ++ l := by
  cases b <;> rfl

/-- Dropping json whitespace stops at a serialized list of strings. -/
theorem dropWhile_jsonWS_dumpsStrArr (ss : List (List Char)) (l : List Char) :
    List.dropWhile jsonWS (dumpsStrArr ss ++ l) = dumpsStrArr ss ++ l := by
  cases ss <;> rfl

/-- Dropping json whitespace stops at a serialized object. -/
theorem dropWhile_jsonWS_dumpFixed (m : FixedMessage) (l : List Char) :
    List.dropWhile jsonWS (dumpFixed m ++ l) = dumpFixed m ++ l := by
  rw [dumpFixed, List.cons_append, dropWhile_jsonWS_stop (by decide)]

/-- The value dispatcher hands a brace-opened, key-headed input to the
object-member loop. -/
theorem parseVal_obj_dispatch (f : Nat) (key l : List Char) :
    parseVal (f + 1) ('{' :: (escStr key ++ l)) =
      parseMembers (parseVal f) (f + 1) (escStr key ++ l) [] := by
  show parseMembers (parseVal f) (f + 1)
    (List.dropWhile jsonWS (escStr key ++ l)) [] = _
  rw [dropWhile_jsonWS_escStr]
/-- `json.loads` of `json.dumps` of a `fixed_message` dict (followed by
any continuation) rebuilds the corresponding `JValue` object. -/
theorem parseVal_dumpFixed (f : Nat) (m : FixedMessage) (rest : List Char)
    (hA1 : allAscii m.title = true) (hA2 : allAscii m.body = true)
    (hA3 : allAscii m.code_review = true) (hA4 : allAscii m.pr = true)
    (hA5 : allAscii m.full_text = true) :
    parseVal (f + 5) (dumpFixed m ++ rest) =
      some (m.toJValue, rest) := by
  have hshape : dumpFixed m ++ rest =
      '{' :: (escStr "title".data ++ ':' :: ' ' ::
        (escStr m.title ++ ',' :: ' ' ::
        (escStr "body".data ++ ':' :: ' ' ::
        (escStr m.body ++ ',' :: ' ' ::
        (escStr "code_review".data ++ ':' :: ' ' ::
        (escStr m.code_review ++ ',' :: ' ' ::
        (escStr "pr".data ++ ':' :: ' ' ::
        (escStr m.pr ++ ',' :: ' ' ::
        (escStr "full_text".data ++ ':' :: ' ' ::
        (escStr m.full_text ++ '}' :: rest)))))))))) := by
    simp [dumpFixed, fixedInner, dumpField, escStr, List.append_assoc]
  rw [hshape]
  rw [show f + 5 = (f + 4) + 1 from rfl, parseVal_obj_dispatch]
  refine (parseMembers_field_more _ _ _ _ _ _ (JValue.jstr m.title)
    (by decide) ?_).trans ?_
  · rw [dropWhile_jsonWS_space, dropWhile_jsonWS_escStr]
    exact parseVal_escStr (f + 3) m.title _ hA1
  rw [dropWhile_jsonWS_space, dropWhile_jsonWS_escStr]
  refine (parseMembers_field_more _ _ _ _ _ _ (JValue.jstr m.body)
    (by decide) ?_).trans ?_
  · rw [dropWhile_jsonWS_space, dropWhile_jsonWS_escStr]
    exact parseVal_escStr (f + 3) m.body _ hA2
  rw [dropWhile_jsonWS_space, dropWhile_jsonWS_escStr]
  refine (parseMembers_field_more _ _ _ _ _ _ (JValue.jstr m.code_review)
    (by decide) ?_).trans ?_
  · rw [dropWhile_jsonWS_space, dropWhile_jsonWS_escStr]
    exact parseVal_escStr (f + 3) m.code_review _ hA3
  rw [dropWhile_jsonWS_space, dropWhile_jsonWS_escStr]
  refine (parseMembers_field_more _ _ _ _ _ _ (JValue.jstr m.pr)
    (by decide) ?_).trans ?_
  · rw [dropWhile_jsonWS_space, dropWhile_jsonWS_escStr]
    exact parseVal_escStr (f + 3) m.pr _ hA4
  rw [dropWhile_jsonWS_space, dropWhile_jsonWS_escStr]
  refine (parseMembers_field_close _ _ _ _ _ _ (JValue.jstr m.full_text)
    (by decide) ?_).trans ?_
  · rw [dropWhile_jsonWS_space, dropWhile_jsonWS_escStr]
    exact parseVal_escStr (f + 3) m.full_text _ hA5
  rfl
/-- `json.loads` of `json.dumps` of a structured-mode verdict dict
(followed by any continuation) rebuilds the corresponding `JValue`. -/
theorem parseVal_dumpVerdict (F : Nat) (v : VerdictObject) (rest : List Char)
    (hA : v.allAsciiFields = true)
    (hF : v.suggestions.length + 7 ≤ F) :
    parseVal (F + 1) (dumpVerdict v ++ rest) = some (v.toJValue, rest) := by
  obtain ⟨g, rfl⟩ : ∃ g, F = g + 6 := ⟨F - 6, by omega⟩
  rw [VerdictObject.allAsciiFields] at hA
  simp only [Bool.and_eq_true] at hA
  obtain ⟨⟨⟨⟨⟨⟨⟨hv1, hv3⟩, hv6⟩, hm1⟩, hm2⟩, hm3⟩, hm4⟩, hm5⟩ := hA
  have hshape : dumpVerdict v ++ rest =
      '{' :: (escStr "verdict".data ++ ':' :: ' ' ::
        (escStr v.verdict ++ ',' :: ' ' ::
        (escStr "title_length".data ++ ':' :: ' ' ::
        (natToDigits v.title_length ++ ',' :: ' ' ::
        (escStr "title_status".data ++ ':' :: ' ' ::
        (escStr v.title_status ++ ',' :: ' ' ::
        (escStr "has_pr".data ++ ':' :: ' ' ::
        (boolLit v.has_pr ++ ',' :: ' ' ::
        (escStr "has_code_review".data ++ ':' :: ' ' ::
        (boolLit v.has_code_review ++ ',' :: ' ' ::
        (escStr "suggestions".data ++ ':' :: ' ' ::
        (dumpsStrArr v.suggestions ++ ',' :: ' ' ::
        (escStr "fixed_message".data ++ ':' :: ' ' ::
        (dumpFixed v.fixed_message ++ '}' :: rest)))))))))))))) := by
    simp [dumpVerdict, verdictInner, dumpField, escStr, List.append_assoc]
  rw [hshape]
  rw [show g + 6 + 1 = (g + 6) + 1 from rfl, parseVal_obj_dispatch]
  refine (parseMembers_field_more _ _ _ _ _ _ (JValue.jstr v.verdict)
    (by decide) ?_).trans ?_
  · rw [dropWhile_jsonWS_space, dropWhile_jsonWS_escStr]
    exact parseVal_escStr (g + 5) v.verdict _ hv1
  rw [dropWhile_jsonWS_space, dropWhile_jsonWS_escStr]
  refine (parseMembers_field_more _ _ _ _ _ _ (JValue.jnum v.title_length)
    (by decide) ?_).trans ?_
  · rw [dropWhile_jsonWS_space, dropWhile_jsonWS_natToDigits]
    exact parseVal_natToDigits (g + 5) v.title_length _
      (by decide) (by decide) (by decide) (by decide)
  rw [dropWhile_jsonWS_space, dropWhile_jsonWS_escStr]
  refine (parseMembers_field_more _ _ _ _ _ _ (JValue.jstr v.title_status)
    (by decide) ?_).trans ?_
  · rw [dropWhile_jsonWS_space, dropWhile_jsonWS_escStr]
    exact parseVal_escStr (g + 5) v.title_status _ hv3
  rw [dropWhile_jsonWS_space, dropWhile_jsonWS_escStr]
  refine (parseMembers_field_more _ _ _ _ _ _ (JValue.jbool v.has_pr)
    (by decide) ?_).trans ?_
  · rw [dropWhile_jsonWS_space, dropWhile_jsonWS_boolLit]
    exact parseVal_boolLit (g + 5) v.has_pr _
  rw [dropWhile_jsonWS_space, dropWhile_jsonWS_escStr]
  refine (parseMembers_field_more _ _ _ _ _ _
    (JValue.jbool v.has_code_review) (by decide) ?_).trans ?_
  · rw [dropWhile_jsonWS_space, dropWhile_jsonWS_boolLit]
    exact parseVal_boolLit (g + 5) v.has_code_review _
  rw [dropWhile_jsonWS_space, dropWhile_jsonWS_escStr]
  refine (parseMembers_field_more _ _ _ _ _ _
    (JValue.jarr (v.suggestions.map JValue.jstr)) (by decide) ?_).trans ?_
  · rw [dropWhile_jsonWS_space, dropWhile_jsonWS_dumpsStrArr]
    exact parseVal_strArr (g + 4) v.suggestions _ hv6 (by omega)
  rw [dropWhile_jsonWS_space, dropWhile_jsonWS_escStr]
  refine (parseMembers_field_close _ _ _ _ _ _
    (v.fixed_message.toJValue) (by decide) ?_).trans ?_
  · rw [dropWhile_jsonWS_space, dropWhile_jsonWS_dumpFixed]
    exact parseVal_dumpFixed (g + 1) v.fixed_message _ hm1 hm2 hm3 hm4 hm5
  rfl
/-- The serialized tail of a string list is at least as long as the
list. -/
theorem strArrTail_length (ss : List (List Char)) :
    ss.length ≤ (strArrTail ss).length := by
  induction ss with
  | nil => simp [strArrTail]
  | cons s ss ih => simp [strArrTail, escStr]; omega

/-- A serialized string list is at least as long as the list. -/
theorem dumpsStrArr_length (ss : List (List Char)) :
    ss.length ≤ (dumpsStrArr ss).length := by
  cases ss with
  | nil => simp [dumpsStrArr]
  | cons s ss =>
    have h := strArrTail_length ss
    simp [dumpsStrArr, escStr]
    omega

/-- `json.loads` rebuilds a serialized verdict object exactly. -/
theorem jparse_dumpVerdict (v : VerdictObject)
    (hA : v.allAsciiFields = true) :
    jparse (dumpVerdict v) = some v.toJValue := by
  have harr := dumpsStrArr_length v.suggestions
  have hlen : v.suggestions.length + 7 ≤ (dumpVerdict v).length := by
    simp [dumpVerdict, verdictInner, dumpField, escStr, List.length_append]
    omega
  have hp := parseVal_dumpVerdict (dumpVerdict v).length v [] hA hlen
  rw [List.append_nil] at hp
  rw [jparse]
  rw [show List.dropWhile jsonWS (dumpVerdict v) = dumpVerdict v from by
    rw [dumpVerdict, dropWhile_jsonWS_stop (by decide)]]
  rw [hp]
  rfl
/-- If the continuation check `\s*```` passes at a `}` that is followed by
`y ++ '}' :: r`, the closing-fence literal occurs inside `y` itself: the
`}` right after `y` can neither be skipped by `\s*` nor match a backtick,
so the fence cannot straddle past it. -/
theorem fenceNext_to_infix (y r : List Char)
    (h : fenceNext (y ++ '}' :: r) = true) : fenceStr <:+: y := by
  induction y with
  | nil =>
    rw [List.nil_append, fenceNext, dropWS,
      List.dropWhile_cons, if_neg (by decide)] at h
    simp [fenceStr, List.isPrefixOf] at h
  | cons c y2 ih =>
    rw [List.cons_append, fenceNext, dropWS, List.dropWhile_cons] at h
    by_cases hw : pyWS c = true
    · rw [if_pos (by simp [hw])] at h
      have hy2 : fenceNext (y2 ++ '}' :: r) = true := by
        rw [fenceNext, dropWS]
        exact h
      exact (ih hy2).trans (List.suffix_cons c y2).isInfix
    · rw [if_neg (by simp [hw])] at h
      obtain ⟨t, ht⟩ := List.isPrefixOf_iff_prefix.mp h
      rw [show fenceStr ++ t = '`' :: '`' :: '`' :: t from rfl] at ht
      cases y2 with
      | nil =>
        rw [List.nil_append] at ht
        injection ht with h1 ht
        injection ht with h2 ht
        exact absurd h2 (by decide)
      | cons d y3 =>
        cases y3 with
        | nil =>
          rw [List.cons_append, List.nil_append] at ht
          injection ht with h1 ht
          injection ht with h2 ht
          injection ht with h3 ht
          exact absurd h3 (by decide)
        | cons e y4 =>
          rw [List.cons_append, List.cons_append] at ht
          injection ht with h1 ht
          injection ht with h2 ht
          injection ht with h3 ht
          refine ⟨[], y4, ?_⟩
          rw [← h1, ← h2, ← h3]
          rfl
/-- On a wrapped serialized verdict whose serialization contains no
closing-fence literal, the regex search returns exactly the serialized
object as group 1. -/
theorem jsonSearch_wrapJson_dumpVerdict (v : VerdictObject)
    (hNF : ¬ (fenceStr <:+: dumpVerdict v)) :
    jsonSearch (wrapJson (dumpVerdict v)) = some (dumpVerdict v) := by
  have hshape : wrapJson (dumpVerdict v) =
      jsonTag ++ (['\n'] ++ '{' ::
        (verdictInner v ++ '}' :: ('\n' :: fenceStr))) := by
    simp [wrapJson, dumpVerdict, List.append_assoc]
  have hno : ∀ x y, verdictInner v = x ++ '}' :: y →
      fenceNext (y ++ '}' :: ('\n' :: fenceStr)) = false := by
    intro x y hdec
    cases hfn : fenceNext (y ++ '}' :: ('\n' :: fenceStr)) with
    | false => rfl
    | true =>
      exfalso
      refine hNF ?_
      have hy : fenceStr <:+: y := fenceNext_to_infix y _ hfn
      refine hy.trans ?_
      rw [dumpVerdict, hdec]
      exact ⟨'{' :: (x ++ ['}']), ['}'], by simp⟩
  have hf : fenceNext ('\n' :: fenceStr) = true := by decide
  have hm := jsonMatchAt_exact ['\n'] (verdictInner v) ('\n' :: fenceStr)
    (by intro c hc; simp at hc; subst hc; decide) hf hno
  rw [hshape]
  rw [jsonSearch_of_matchAt hm]
  rfl

/-- C5 amended: a structured-mode verdict object with ASCII field content
whose `json.dumps` serialization contains no fence literal, wrapped into a
json-fenced block, is recovered identically by `extract_json_block`. -/
theorem verdict_object_round_trip (v : VerdictObject)
    (hA : v.allAsciiFields = true)
    (hNF : ¬ (fenceStr <:+: dumpVerdict v)) :
    extract_json_block (wrapJson (dumpVerdict v)) =
      Except.ok v.toJValue := by
  rw [extract_json_block, jsonSearch_wrapJson_dumpVerdict v hNF]
  show jloadsBlock (dumpVerdict v) = Except.ok v.toJValue
  rw [jloadsBlock.eq_def, jparse_dumpVerdict v hA]
set_option maxRecDepth 100000 in
/-- C5 counterexample: the round trip is not identity for every verdict
object. When a suggestion string contains `\x7d` followed by a backtick
fence, the lazy group of `r"```json\s*(\x7b.*?\x7d)\s*```"` closes at that
brace inside the string literal, the truncated group fails `json.loads`,
and `extract_json_block` raises `MalformedJSON` instead of returning the
object. -/
theorem verdict_round_trip_cx :
    extract_json_block (wrapJson (dumpVerdict cxV)) =
        Except.error JsonBlockErr.malformedJSON ∧
      (Except.error JsonBlockErr.malformedJSON : Except JsonBlockErr JValue) ≠
        Except.ok cxV.toJValue := by
  constructor
  · rfl
  · simp

set_option maxRecDepth 100000 in
/-- Witness for the amended C5 round trip on a concrete verdict object. -/
theorem verdict_object_round_trip_witness :
    extract_json_block (wrapJson (dumpVerdict rtV)) = Except.ok rtV.toJValue :=
  verdict_object_round_trip rtV (by decide) (by decide)
